import Mathlib

set_option maxHeartbeats 1000000
set_option linter.unusedSectionVars false

/-!
Verification of the dictionary engine of the plover repository.

The embedding covers:
* `plover/steno.py`          — `normalize_stroke`;
* `plover/steno_dictionary.py` — `StenoDictionary` (forward mapping plus a
  reverse index) and `StenoDictionaryCollection` (priority-ordered lookups,
  filters, precedence-aware reverse lookup, `_multi_reverse_lookup` and the
  `find_*` search entry points);
* `plover/dictionary/base.py` — `SimilarSearchDict` (hash map plus a lazily
  sorted auxiliary list of `(similarity key, raw key)` pairs).

Python `dict` objects are embedded as association lists (`List (K × V)`),
Python `str` as `List Char` where character-level operations matter, Python
`set` as `Finset`.  Methods that can raise (`assert`, `KeyError`) return
`Except String`.  The class `ReverseStenoDict` is imported by
`steno_dictionary.py` from `plover.dictionary.base` but its definition is not
part of the sources; its exact-match surface (`append_key`, `remove_key`,
`match_forward`, item access) is modelled from the spec, as marked below.
-/

/-! ### Python `dict` as an association list -/

variable {K V : Type} [DecidableEq K] [DecidableEq V]

/-- `d[k]` / `d.get(k)`: value of the first entry with key `k`. -/
def lookupKV : List (K × V) → K → Option V
  | [], _ => none
  | (k', v') :: rest, k => if k' = k then some v' else lookupKV rest k

/-- `k in d`: forward-key membership test. -/
def containsK (l : List (K × V)) (k : K) : Bool :=
  (lookupKV l k).isSome

/-- `d[k] = v`: replace the value of an existing entry in place, or append a
new entry (Python dicts preserve insertion order). -/
def setKV : List (K × V) → K → V → List (K × V)
  | [], k, v => [(k, v)]
  | (k', v') :: rest, k, v =>
    if k' = k then (k, v) :: rest else (k', v') :: setKV rest k v

/-- `del d[k]` on the underlying hash map: drop the first entry with key `k`. -/
def delKV : List (K × V) → K → List (K × V)
  | [], _ => []
  | (k', v') :: rest, k => if k' = k then rest else (k', v') :: delKV rest k

/-- `list.remove(x)`-style removal of the first occurrence of an element. -/
def eraseFirst {α : Type} [DecidableEq α] : List α → α → List α
  | [], _ => []
  | x :: rest, a => if x = a then rest else x :: eraseFirst rest a

theorem lookupKV_setKV (l : List (K × V)) (k k' : K) (v : V) :
    lookupKV (setKV l k v) k' = if k = k' then some v else lookupKV l k' := by
  induction l with
  | nil => by_cases h : k = k' <;> simp [setKV, lookupKV, h]
  | cons p rest ih =>
    obtain ⟨k₁, v₁⟩ := p
    by_cases h1 : k₁ = k
    · subst h1
      by_cases h2 : k₁ = k' <;> simp [setKV, lookupKV, h2]
    · by_cases h2 : k₁ = k'
      · subst h2
        have hk : ¬ k = k₁ := fun hh => h1 hh.symm
        simp [setKV, lookupKV, h1, hk]
      · simp [setKV, lookupKV, h1, h2, ih]

theorem lookupKV_delKV_ne (l : List (K × V)) (k k' : K) (h : k ≠ k') :
    lookupKV (delKV l k) k' = lookupKV l k' := by
  induction l with
  | nil => simp [delKV]
  | cons p rest ih =>
    obtain ⟨k₁, v₁⟩ := p
    by_cases h1 : k₁ = k
    · subst h1
      simp [delKV, lookupKV, h]
    · by_cases h2 : k₁ = k'
      · subst h2
        simp [delKV, lookupKV, h1]
      · simp [delKV, lookupKV, h1, h2, ih]

theorem lookupKV_eq_none_of_not_mem (l : List (K × V)) (k : K)
    (h : k ∉ l.map Prod.fst) : lookupKV l k = none := by
  induction l with
  | nil => simp [lookupKV]
  | cons p rest ih =>
    obtain ⟨k₁, v₁⟩ := p
    simp only [List.map_cons, List.mem_cons] at h
    push_neg at h
    have h1 : ¬ k₁ = k := fun hh => h.1 hh.symm
    simp [lookupKV, h1, ih h.2]

theorem map_fst_delKV_sublist (l : List (K × V)) (k : K) :
    ((delKV l k).map Prod.fst).Sublist (l.map Prod.fst) := by
  induction l with
  | nil => simp [delKV]
  | cons p rest ih =>
    obtain ⟨k₁, v₁⟩ := p
    by_cases h1 : k₁ = k
    · simpa [delKV, h1] using (List.sublist_cons_self k₁ (rest.map Prod.fst))
    · simpa [delKV, h1] using ih.cons₂ k₁

theorem lookupKV_delKV_self (l : List (K × V)) (k : K)
    (hnd : (l.map Prod.fst).Nodup) : lookupKV (delKV l k) k = none := by
  induction l with
  | nil => simp [delKV, lookupKV]
  | cons p rest ih =>
    obtain ⟨k₁, v₁⟩ := p
    simp only [List.map_cons, List.nodup_cons] at hnd
    by_cases h1 : k₁ = k
    · subst h1
      simp only [delKV, if_pos rfl]
      exact lookupKV_eq_none_of_not_mem rest k₁ hnd.1
    · simp [delKV, lookupKV, h1, ih hnd.2]

theorem mem_map_fst_setKV (l : List (K × V)) (k a : K) (v : V) :
    a ∈ (setKV l k v).map Prod.fst → a ∈ l.map Prod.fst ∨ a = k := by
  induction l with
  | nil =>
    intro h
    right
    simpa [setKV] using h
  | cons p rest ih =>
    obtain ⟨k₁, v₁⟩ := p
    intro h
    by_cases h1 : k₁ = k
    · subst h1
      simp only [setKV, if_pos rfl, List.map_cons, List.mem_cons] at h
      rw [if_pos trivial] at h
      simp only [List.map_cons, List.mem_cons] at h
      rcases h with h | h
      · exact Or.inr h
      · exact Or.inl (List.mem_cons_of_mem _ h)
    · simp only [setKV, if_neg h1, List.map_cons, List.mem_cons] at h
      rcases h with h | h
      · exact Or.inl (List.mem_cons.mpr (Or.inl h))
      · rcases ih h with h' | h'
        · exact Or.inl (List.mem_cons_of_mem _ h')
        · exact Or.inr h'

theorem nodup_map_fst_setKV (l : List (K × V)) (k : K) (v : V)
    (hnd : (l.map Prod.fst).Nodup) : ((setKV l k v).map Prod.fst).Nodup := by
  induction l with
  | nil => simp [setKV]
  | cons p rest ih =>
    obtain ⟨k₁, v₁⟩ := p
    simp only [List.map_cons, List.nodup_cons] at hnd
    by_cases h1 : k₁ = k
    · subst h1
      simpa [setKV] using hnd
    · have hmem : k₁ ∉ (setKV rest k v).map Prod.fst := by
        intro hmem
        rcases mem_map_fst_setKV rest k k₁ v hmem with h' | h'
        · exact hnd.1 h'
        · exact h1 h'
      simp [setKV, h1, List.nodup_cons, hmem, ih hnd.2]

theorem nodup_map_fst_delKV (l : List (K × V)) (k : K)
    (hnd : (l.map Prod.fst).Nodup) : ((delKV l k).map Prod.fst).Nodup :=
  hnd.sublist (map_fst_delKV_sublist l k)

/-! ### The reverse index (`ReverseStenoDict`), exact-match surface

`steno_dictionary.py` imports `ReverseStenoDict` from `plover.dictionary.base`
but the class body is not part of the sources.  The exact-match surface used
by `StenoDictionary` (`append_key`, `remove_key`, `match_forward`, item
access, `in`) is modelled from the spec: the reverse index maps a translation
to the collection of keys producing it, `append_key v k` records `k` under
`v`, `remove_key v k` erases that record again so that "no stale entries
survive a key's removal or reassignment". -/

/-- Modelled from the spec: `ReverseStenoDict.append_key(v, k)` — add `k` to
the keys recorded for translation `v`, creating the entry if absent. -/
def append_key (v : V) (k : K) : List (V × List K) → List (V × List K)
  | [] => [(v, [k])]
  | (v', l) :: rest =>
    if v' = v then (v', l ++ [k]) :: rest else (v', l) :: append_key v k rest

/-- Modelled from the spec: `ReverseStenoDict.remove_key(v, k)` — remove `k`
from the keys recorded for translation `v`, dropping the entry when the last
key disappears (no stale entries survive). -/
def remove_key (v : V) (k : K) : List (V × List K) → List (V × List K)
  | [] => []
  | (v', l) :: rest =>
    if v' = v then
      (if eraseFirst l k = [] then rest else (v', eraseFirst l k) :: rest)
    else (v', l) :: remove_key v k rest

/-- Modelled from the spec: `ReverseStenoDict.match_forward(fwd)` — rebuild
the reverse index wholesale from a forward mapping. -/
def match_forward (fwd : List (K × V)) : List (V × List K) :=
  fwd.foldl (fun rev p => append_key p.2 p.1 rev) []

/-- `self.reverse[value] if value in self.reverse else []`: the keys the
reverse index currently associates with `v`. -/
def revKeys (rev : List (V × List K)) (v : V) : List K :=
  match rev.find? (fun p => p.1 = v) with
  | some p => p.2
  | none => []

theorem revKeys_nil (v : V) : revKeys ([] : List (V × List K)) v = [] := rfl

theorem revKeys_cons (v' : V) (l : List K) (rest : List (V × List K)) (v : V) :
    revKeys ((v', l) :: rest) v = if v' = v then l else revKeys rest v := by
  by_cases h : v' = v <;> simp [revKeys, List.find?, h]

theorem revKeys_eq_nil_of_not_mem (rev : List (V × List K)) (v : V)
    (h : v ∉ rev.map Prod.fst) : revKeys rev v = [] := by
  induction rev with
  | nil => rfl
  | cons p rest ih =>
    obtain ⟨v₁, l₁⟩ := p
    simp only [List.map_cons, List.mem_cons] at h
    push_neg at h
    have h1 : ¬ v₁ = v := fun hh => h.1 hh.symm
    rw [revKeys_cons, if_neg h1]
    exact ih h.2

theorem revKeys_append_key (rev : List (V × List K)) (v₀ v : V) (k₀ : K) :
    revKeys (append_key v₀ k₀ rev) v =
      if v = v₀ then revKeys rev v₀ ++ [k₀] else revKeys rev v := by
  induction rev with
  | nil =>
    by_cases h : v = v₀
    · subst h
      simp [append_key, revKeys_cons, revKeys_nil]
    · have h1 : ¬ v₀ = v := fun hh => h hh.symm
      simp [append_key, revKeys_cons, revKeys_nil, h, h1]
  | cons p rest ih =>
    obtain ⟨v₁, l₁⟩ := p
    by_cases h1 : v₁ = v₀
    · subst h1
      by_cases h2 : v = v₁
      · subst h2
        simp [append_key, revKeys_cons]
      · have h2' : ¬ v₁ = v := fun hh => h2 hh.symm
        simp [append_key, revKeys_cons, h2, h2']
    · by_cases h2 : v₁ = v
      · subst h2
        have h3 : ¬ v₁ = v₀ := h1
        simp [append_key, h3, revKeys_cons]
      · simp [append_key, h1, revKeys_cons, h2, ih]

theorem revKeys_remove_key (rev : List (V × List K)) (v₀ v : V) (k₀ : K)
    (hnd : (rev.map Prod.fst).Nodup) :
    revKeys (remove_key v₀ k₀ rev) v =
      if v = v₀ then eraseFirst (revKeys rev v₀) k₀ else revKeys rev v := by
  induction rev with
  | nil =>
    by_cases h : v = v₀ <;> simp [remove_key, revKeys_nil, eraseFirst, h]
  | cons p rest ih =>
    obtain ⟨v₁, l₁⟩ := p
    simp only [List.map_cons, List.nodup_cons] at hnd
    by_cases h1 : v₁ = v₀
    · subst h1
      by_cases he : eraseFirst l₁ k₀ = []
      · by_cases h2 : v = v₁
        · subst h2
          simp [remove_key, he, revKeys_cons,
            revKeys_eq_nil_of_not_mem rest v hnd.1, eraseFirst]
        · have h2' : ¬ v₁ = v := fun hh => h2 hh.symm
          simp [remove_key, he, revKeys_cons, h2, h2']
      · by_cases h2 : v = v₁
        · subst h2
          simp [remove_key, he, revKeys_cons]
        · have h2' : ¬ v₁ = v := fun hh => h2 hh.symm
          simp [remove_key, he, revKeys_cons, h2, h2']
    · by_cases h2 : v₁ = v
      · subst h2
        simp [remove_key, h1, revKeys_cons]
      · simp [remove_key, h1, revKeys_cons, h2, ih hnd.2]

theorem eraseFirst_sublist {α : Type} [DecidableEq α] (l : List α) (a : α) :
    (eraseFirst l a).Sublist l := by
  induction l with
  | nil => simp [eraseFirst]
  | cons x rest ih =>
    by_cases h : x = a
    · simpa [eraseFirst, h] using List.sublist_cons_self x rest
    · simpa [eraseFirst, h] using ih.cons₂ x

theorem mem_eraseFirst {α : Type} [DecidableEq α] (l : List α) (a x : α)
    (hnd : l.Nodup) : x ∈ eraseFirst l a ↔ x ∈ l ∧ x ≠ a := by
  induction l with
  | nil => simp [eraseFirst]
  | cons y rest ih =>
    simp only [List.nodup_cons] at hnd
    by_cases h : y = a
    · subst h
      simp only [eraseFirst, if_pos rfl, List.mem_cons]
      constructor
      · intro hx
        exact ⟨Or.inr hx, fun hxy => hnd.1 (hxy ▸ hx)⟩
      · rintro ⟨hx | hx, hne⟩
        · exact absurd hx hne
        · exact hx
    · simp only [eraseFirst, if_neg h, List.mem_cons]
      constructor
      · rintro (hx | hx)
        · exact ⟨Or.inl hx, fun hxa => h (hx ▸ hxa)⟩
        · rcases (ih hnd.2).mp hx with ⟨h1, h2⟩
          exact ⟨Or.inr h1, h2⟩
      · rintro ⟨hx | hx, hne⟩
        · exact Or.inl hx
        · exact Or.inr ((ih hnd.2).mpr ⟨hx, hne⟩)

theorem nodup_eraseFirst {α : Type} [DecidableEq α] (l : List α) (a : α)
    (hnd : l.Nodup) : (eraseFirst l a).Nodup :=
  hnd.sublist (eraseFirst_sublist l a)

theorem map_fst_remove_key_sublist (rev : List (V × List K)) (v : V) (k : K) :
    ((remove_key v k rev).map Prod.fst).Sublist (rev.map Prod.fst) := by
  induction rev with
  | nil => simp [remove_key]
  | cons p rest ih =>
    obtain ⟨v₁, l₁⟩ := p
    by_cases h1 : v₁ = v
    · by_cases he : eraseFirst l₁ k = []
      · simpa [remove_key, h1, he] using List.sublist_cons_self v₁ (rest.map Prod.fst)
      · simp [remove_key, h1, he]
    · simpa [remove_key, h1] using ih.cons₂ v₁

theorem nodup_map_fst_remove_key (rev : List (V × List K)) (v : V) (k : K)
    (hnd : (rev.map Prod.fst).Nodup) :
    ((remove_key v k rev).map Prod.fst).Nodup :=
  hnd.sublist (map_fst_remove_key_sublist rev v k)

theorem mem_map_fst_append_key (rev : List (V × List K)) (v a : V) (k : K) :
    a ∈ (append_key v k rev).map Prod.fst → a ∈ rev.map Prod.fst ∨ a = v := by
  induction rev with
  | nil =>
    intro h
    right
    simpa [append_key] using h
  | cons p rest ih =>
    obtain ⟨v₁, l₁⟩ := p
    intro h
    by_cases h1 : v₁ = v
    · subst h1
      simp only [append_key, if_pos rfl, List.map_cons, List.mem_cons] at h
      rw [if_pos trivial] at h
      simp only [List.map_cons, List.mem_cons] at h
      rcases h with h | h
      · exact Or.inl (List.mem_cons.mpr (Or.inl h))
      · exact Or.inl (List.mem_cons_of_mem _ h)
    · simp only [append_key, if_neg h1, List.map_cons, List.mem_cons] at h
      rcases h with h | h
      · exact Or.inl (List.mem_cons.mpr (Or.inl h))
      · rcases ih h with h' | h'
        · exact Or.inl (List.mem_cons_of_mem _ h')
        · exact Or.inr h'

theorem nodup_map_fst_append_key (rev : List (V × List K)) (v : V) (k : K)
    (hnd : (rev.map Prod.fst).Nodup) :
    ((append_key v k rev).map Prod.fst).Nodup := by
  induction rev with
  | nil => simp [append_key]
  | cons p rest ih =>
    obtain ⟨v₁, l₁⟩ := p
    simp only [List.map_cons, List.nodup_cons] at hnd
    by_cases h1 : v₁ = v
    · subst h1
      simpa [append_key] using hnd
    · have hmem : v₁ ∉ (append_key v k rest).map Prod.fst := by
        intro hmem
        rcases mem_map_fst_append_key rest v v₁ k hmem with h' | h'
        · exact hnd.1 h'
        · exact h1 h'
      simp [append_key, h1, List.nodup_cons, hmem, ih hnd.2]

theorem revKeys_nodup (rev : List (V × List K)) (v : V)
    (he : ∀ p ∈ rev, p.2.Nodup) : (revKeys rev v).Nodup := by
  unfold revKeys
  cases hfind : rev.find? (fun p => p.1 = v) with
  | none => simp
  | some p => exact he p (List.mem_of_find?_eq_some hfind)

theorem entries_nodup_append_key (rev : List (V × List K)) (v : V) (k : K) :
    (∀ p ∈ rev, p.2.Nodup) → k ∉ revKeys rev v →
    ∀ p ∈ append_key v k rev, p.2.Nodup := by
  induction rev with
  | nil =>
    intro _ _ p hp
    simp only [append_key, List.mem_singleton] at hp
    simp [hp]
  | cons q rest ih =>
    obtain ⟨v₁, l₁⟩ := q
    intro he hk p hp
    by_cases h1 : v₁ = v
    · subst h1
      rw [revKeys_cons, if_pos rfl] at hk
      simp only [append_key, if_pos rfl, List.mem_cons] at hp
      rw [if_pos trivial] at hp
      simp only [List.mem_cons] at hp
      rcases hp with hp | hp
      · subst hp
        have h2 : l₁.Nodup := he (v₁, l₁) (List.mem_cons.mpr (Or.inl rfl))
        simp [List.nodup_append, h2, hk]
      · exact he p (List.mem_cons_of_mem _ hp)
    · rw [revKeys_cons, if_neg h1] at hk
      simp only [append_key, if_neg h1, List.mem_cons] at hp
      rcases hp with hp | hp
      · subst hp
        exact he (v₁, l₁) (List.mem_cons.mpr (Or.inl rfl))
      · exact ih (fun q hq => he q (List.mem_cons_of_mem _ hq)) hk p hp

theorem entries_nodup_remove_key (rev : List (V × List K)) (v : V) (k : K) :
    (∀ p ∈ rev, p.2.Nodup) →
    ∀ p ∈ remove_key v k rev, p.2.Nodup := by
  induction rev with
  | nil =>
    intro _ p hp
    simp [remove_key] at hp
  | cons q rest ih =>
    obtain ⟨v₁, l₁⟩ := q
    intro he p hp
    by_cases h1 : v₁ = v
    · by_cases hemp : eraseFirst l₁ k = []
      · simp only [remove_key, if_pos h1, if_pos hemp] at hp
        exact he p (List.mem_cons_of_mem _ hp)
      · simp only [remove_key, if_pos h1, if_neg hemp, List.mem_cons] at hp
        rcases hp with hp | hp
        · subst hp
          exact nodup_eraseFirst l₁ k (he (v₁, l₁) (List.mem_cons.mpr (Or.inl rfl)))
        · exact he p (List.mem_cons_of_mem _ hp)
    · simp only [remove_key, if_neg h1, List.mem_cons] at hp
      rcases hp with hp | hp
      · subst hp
        exact he (v₁, l₁) (List.mem_cons.mpr (Or.inl rfl))
      · exact ih (fun q hq => he q (List.mem_cons_of_mem _ hq)) p hp

/-! ### `StenoDictionary` (`plover/steno_dictionary.py`) -/

/-- State of a `StenoDictionary`: the forward mapping (the `dict` base class),
the reverse index, and the `readonly` / `enabled` flags set by `__init__`. -/
structure StenoDictionary (K V : Type) where
  fwd : List (K × V)
  rev : List (V × List K)
  readonly : Bool
  enabled : Bool
deriving DecidableEq

/-- `StenoDictionary.__init__`: empty mappings, writable, enabled. -/
def sdInit : StenoDictionary K V :=
  ⟨[], [], false, true⟩

/-- `StenoDictionary.__setitem__(key, value)` (steno_dictionary.py:102-109):
assert not readonly; if the key exists, first remove its old mapping from the
reverse index; then store the forward entry and record the new reverse
mapping. -/
def sdSetitem (d : StenoDictionary K V) (key : K) (value : V) :
    Except String (StenoDictionary K V) :=
  if d.readonly then Except.error "AssertionError: not self.readonly"
  else
    let rev1 :=
      match lookupKV d.fwd key with
      | some old => remove_key old key d.rev
      | none => d.rev
    Except.ok { d with fwd := setKV d.fwd key value,
                       rev := append_key value key rev1 }

/-- `StenoDictionary.__delitem__(key)` (steno_dictionary.py:111-114):
assert not readonly; `super().pop(key)` raises `KeyError` when the key is
absent; then remove the reverse mapping. -/
def sdDelitem (d : StenoDictionary K V) (key : K) :
    Except String (StenoDictionary K V) :=
  if d.readonly then Except.error "AssertionError: not self.readonly"
  else
    match lookupKV d.fwd key with
    | none => Except.error "KeyError"
    | some value =>
      Except.ok { d with fwd := delKV d.fwd key,
                         rev := remove_key value key d.rev }

/-- `StenoDictionary.clear` (steno_dictionary.py:97-100): empty both mappings.
Note: unlike `__setitem__`/`__delitem__`/`update`, the source performs no
`readonly` assertion here. -/
def sdClear (d : StenoDictionary K V) : StenoDictionary K V :=
  { d with fwd := [], rev := [] }

/-- `dict(*args)`: collapse a pair sequence into a Python dict (later pairs
win), preserving first-insertion order. -/
def toDict (pairs : List (K × V)) : List (K × V) :=
  pairs.foldl (fun acc p => setKV acc p.1 p.2) []

/-- `StenoDictionary.update(*args)` (steno_dictionary.py:116-128): assert not
readonly; if the dictionary starts out empty, bulk-assign the forward mapping
and rebuild the reverse index wholesale (`match_forward`), otherwise set the
items one at a time. -/
def sdUpdate (d : StenoDictionary K V) (pairs : List (K × V)) :
    Except String (StenoDictionary K V) :=
  if d.readonly then Except.error "AssertionError: not self.readonly"
  else if d.fwd.isEmpty then
    Except.ok { d with fwd := toDict pairs, rev := match_forward (toDict pairs) }
  else
    (toDict pairs).foldlM (fun acc p => sdSetitem acc p.1 p.2) d

/-- `StenoDictionary.reverse_lookup(value)` (steno_dictionary.py:130-135):
`self.reverse[value] if value in self.reverse else []`. -/
def sdReverseLookup (d : StenoDictionary K V) (value : V) : List K :=
  revKeys d.rev value

/-- The Python value `NotImplementedError` (the exception *class* object),
which the unsupported mapping methods return — not raise. -/
inductive PyValue : Type
  | notImplementedErrorClass
deriving DecidableEq

/-- `StenoDictionary.setdefault` (steno_dictionary.py:142): the body is
`return NotImplementedError` — it returns the exception class as an ordinary
value and leaves the state untouched. -/
def sdSetdefault (d : StenoDictionary K V) (_k : K) (_default : Option V) :
    PyValue × StenoDictionary K V :=
  (PyValue.notImplementedErrorClass, d)

/-- `StenoDictionary.pop` (steno_dictionary.py:143): `return
NotImplementedError` — returns the class, raises nothing, mutates nothing. -/
def sdPop (d : StenoDictionary K V) (_k : K) :
    PyValue × StenoDictionary K V :=
  (PyValue.notImplementedErrorClass, d)

/-- `StenoDictionary.popitem` (steno_dictionary.py:144): `return
NotImplementedError` — returns the class, raises nothing, mutates nothing. -/
def sdPopitem (d : StenoDictionary K V) :
    PyValue × StenoDictionary K V :=
  (PyValue.notImplementedErrorClass, d)

/-- One mutation step applied to a `StenoDictionary`: `d[k] = v` or
`del d[k]`. -/
inductive DictOp (K V : Type) : Type
  | set (k : K) (v : V)
  | del (k : K)

/-- Run one `DictOp`. -/
def sdApply (d : StenoDictionary K V) : DictOp K V →
    Except String (StenoDictionary K V)
  | DictOp.set k v => sdSetitem d k v
  | DictOp.del k => sdDelitem d k

/-- Run a finite interleaving of `__setitem__`/`__delitem__` operations,
propagating the first raised error. -/
def sdExec : StenoDictionary K V → List (DictOp K V) →
    Except String (StenoDictionary K V)
  | d, [] => Except.ok d
  | d, op :: rest =>
    match sdApply d op with
    | Except.error e => Except.error e
    | Except.ok d' => sdExec d' rest

/-- The forward/reverse consistency invariant of a `StenoDictionary`:
forward keys are unique, reverse-index translations are unique, every
reverse key list is duplicate-free, and membership in the reverse index is
exactly forward lookup. -/
def sdInv (d : StenoDictionary K V) : Prop :=
  (d.fwd.map Prod.fst).Nodup ∧
  (d.rev.map Prod.fst).Nodup ∧
  (∀ p ∈ d.rev, p.2.Nodup) ∧
  (∀ v k, k ∈ revKeys d.rev v ↔ lookupKV d.fwd k = some v)

theorem sdInv_init : sdInv (sdInit : StenoDictionary K V) := by
  refine ⟨by simp [sdInit], by simp [sdInit], by simp [sdInit], ?_⟩
  intro v k
  simp [sdInit, revKeys_nil, lookupKV]

theorem sdDelitem_inv (d d' : StenoDictionary K V) (k₀ : K)
    (hinv : sdInv d) (hok : sdDelitem d k₀ = Except.ok d') : sdInv d' := by
  obtain ⟨hf, hr, he, hx⟩ := hinv
  unfold sdDelitem at hok
  by_cases hro : d.readonly = true
  · rw [if_pos hro] at hok
    exact absurd hok (by simp)
  · rw [if_neg hro] at hok
    cases hlook : lookupKV d.fwd k₀ with
    | none =>
      rw [hlook] at hok
      exact absurd hok (by simp)
    | some u =>
      rw [hlook] at hok
      have hd' : d' = { d with fwd := delKV d.fwd k₀,
                               rev := remove_key u k₀ d.rev } := by
        cases hok
        rfl
      subst hd'
      refine ⟨nodup_map_fst_delKV _ _ hf, nodup_map_fst_remove_key _ _ _ hr,
        entries_nodup_remove_key _ _ _ he, ?_⟩
      intro v k
      show k ∈ revKeys (remove_key u k₀ d.rev) v ↔
        lookupKV (delKV d.fwd k₀) k = some v
      rw [revKeys_remove_key _ _ _ _ hr]
      by_cases hv : v = u
      · rw [if_pos hv]
        rw [mem_eraseFirst _ _ _ (revKeys_nodup d.rev u he)]
      
        by_cases hk : k = k₀
        · subst hk
          rw [lookupKV_delKV_self _ _ hf]
          simp
        · rw [lookupKV_delKV_ne _ _ _ (fun hh => hk hh.symm)]
          rw [hv]
          simp only [hx u k]
          simp [hk]
      · rw [if_neg hv]
        by_cases hk : k = k₀
        · subst hk
          rw [lookupKV_delKV_self _ _ hf]
          simp only [hx v k, hlook]
          simp
          exact fun hh => hv hh.symm
        · rw [lookupKV_delKV_ne _ _ _ (fun hh => hk hh.symm)]
          exact hx v k

theorem sd_exact_after_set (fwd : List (K × V)) (rev1 : List (V × List K))
    (k₀ : K) (v₀ : V)
    (h1 : ∀ v, k₀ ∉ revKeys rev1 v)
    (h2 : ∀ v k, k ≠ k₀ → (k ∈ revKeys rev1 v ↔ lookupKV fwd k = some v)) :
    ∀ v k, k ∈ revKeys (append_key v₀ k₀ rev1) v ↔
      lookupKV (setKV fwd k₀ v₀) k = some v := by
  intro v k
  rw [revKeys_append_key, lookupKV_setKV]
  by_cases hk : k₀ = k
  · subst hk
    rw [if_pos rfl]
    by_cases hv : v = v₀
    · rw [if_pos hv]
      simp [hv]
    · rw [if_neg hv]
      have hv' : ¬ v₀ = v := fun hh => hv hh.symm
      simp [h1 v, hv']
  · rw [if_neg hk]
    have hk' : k ≠ k₀ := fun hh => hk hh.symm
    by_cases hv : v = v₀
    · rw [if_pos hv, hv]
      simp only [List.mem_append, List.mem_singleton]
      constructor
      · rintro (hm | hm)
        · exact (h2 v₀ k hk').mp hm
        · exact absurd hm hk'
      · intro hl
        exact Or.inl ((h2 v₀ k hk').mpr hl)
    · rw [if_neg hv]
      exact h2 v k hk'

theorem sdSetitem_inv (d d' : StenoDictionary K V) (k₀ : K) (v₀ : V)
    (hinv : sdInv d) (hok : sdSetitem d k₀ v₀ = Except.ok d') : sdInv d' := by
  obtain ⟨hf, hr, he, hx⟩ := hinv
  unfold sdSetitem at hok
  by_cases hro : d.readonly = true
  · rw [if_pos hro] at hok
    exact absurd hok (by simp)
  · rw [if_neg hro] at hok
    cases hlook : lookupKV d.fwd k₀ with
    | some u =>
      rw [hlook] at hok
      have hd' : d' = { d with fwd := setKV d.fwd k₀ v₀,
                               rev := append_key v₀ k₀ (remove_key u k₀ d.rev) } := by
        cases hok
        rfl
      subst hd'
      have h1 : ∀ v, k₀ ∉ revKeys (remove_key u k₀ d.rev) v := by
        intro v hmem
        rw [revKeys_remove_key _ _ _ _ hr] at hmem
        by_cases hv : v = u
        · rw [if_pos hv] at hmem
          rw [mem_eraseFirst _ _ _ (revKeys_nodup d.rev u he)] at hmem
          exact hmem.2 rfl
        · rw [if_neg hv] at hmem
          have hh := (hx v k₀).mp hmem
          rw [hlook] at hh
          exact hv (Option.some.inj hh).symm
      have h2 : ∀ v k, k ≠ k₀ →
          (k ∈ revKeys (remove_key u k₀ d.rev) v ↔ lookupKV d.fwd k = some v) := by
        intro v k hk
        rw [revKeys_remove_key _ _ _ _ hr]
        by_cases hv : v = u
        · rw [if_pos hv, mem_eraseFirst _ _ _ (revKeys_nodup d.rev u he), hv]
          simp [hk]
          exact hx u k
        · rw [if_neg hv]
          exact hx v k
      refine ⟨nodup_map_fst_setKV _ _ _ hf,
        nodup_map_fst_append_key _ _ _ (nodup_map_fst_remove_key _ _ _ hr),
        entries_nodup_append_key _ _ _ (entries_nodup_remove_key _ _ _ he) (h1 v₀),
        ?_⟩
      intro v k
      exact sd_exact_after_set d.fwd _ k₀ v₀ h1 h2 v k
    | none =>
      rw [hlook] at hok
      have hd' : d' = { d with fwd := setKV d.fwd k₀ v₀,
                               rev := append_key v₀ k₀ d.rev } := by
        cases hok
        rfl
      subst hd'
      have h1 : ∀ v, k₀ ∉ revKeys d.rev v := by
        intro v hmem
        have hh := (hx v k₀).mp hmem
        rw [hlook] at hh
        exact Option.noConfusion hh
      have h2 : ∀ v k, k ≠ k₀ → (k ∈ revKeys d.rev v ↔ lookupKV d.fwd k = some v) :=
        fun v k _ => hx v k
      refine ⟨nodup_map_fst_setKV _ _ _ hf, nodup_map_fst_append_key _ _ _ hr,
        entries_nodup_append_key _ _ _ he (h1 v₀), ?_⟩
      intro v k
      exact sd_exact_after_set d.fwd _ k₀ v₀ h1 h2 v k

theorem sdExec_inv (ops : List (DictOp K V)) :
    ∀ d d' : StenoDictionary K V, sdInv d → sdExec d ops = Except.ok d' →
      sdInv d' := by
  induction ops with
  | nil =>
    intro d d' hinv hok
    cases hok
    exact hinv
  | cons op rest ih =>
    intro d d' hinv hok
    unfold sdExec at hok
    cases hstep : sdApply d op with
    | error e =>
      rw [hstep] at hok
      exact absurd hok (by simp)
    | ok d₁ =>
      rw [hstep] at hok
      cases op with
      | set k v => exact ih d₁ d' (sdSetitem_inv d d₁ k v hinv hstep) hok
      | del k => exact ih d₁ d' (sdDelitem_inv d d₁ k hinv hstep) hok

/-- C1: for every finite interleaving of `__setitem__` and `__delitem__`
operations that runs without error from an empty `StenoDictionary`, the
reverse index is the exact inverse of the forward mapping: for every
translation `v` and key `k`, `k` is among the keys the reverse index
associates with `v` iff the forward mapping sends `k` to `v` — so no stale
entry survives a key's removal or reassignment. -/
theorem c1_reverse_index_exact (ops : List (DictOp K V))
    (d : StenoDictionary K V) (hok : sdExec sdInit ops = Except.ok d) :
    ∀ v k, k ∈ sdReverseLookup d v ↔ lookupKV d.fwd k = some v := by
  have hinv := sdExec_inv ops sdInit d sdInv_init hok
  exact fun v k => hinv.2.2.2 v k

/-- Witness for C1: the concrete interleaving
`d[1]=10; d[2]=10; d[1]=20; del d[2]` ends in the state
`fwd = [(1,20)]`, `rev = [(20,[1])]`, where the theorem applies. -/
theorem c1_reverse_index_exact_witness :
    2 ∈ sdReverseLookup (StenoDictionary.mk [((1:ℕ), (20:ℕ))] [(20, [1])] false true) 10 ↔
      lookupKV (StenoDictionary.mk [((1:ℕ), (20:ℕ))] [(20, [1])] false true).fwd 2 = some 10 :=
  c1_reverse_index_exact
    [DictOp.set 1 10, DictOp.set 2 10, DictOp.set 1 20, DictOp.del 2]
    (StenoDictionary.mk [(1, 20)] [(20, [1])] false true) (by rfl) 10 2

/-! ### `StenoDictionaryCollection` (`plover/steno_dictionary.py`) -/

/-- State of a `StenoDictionaryCollection`: the priority-ordered member list
(index 0 = highest priority) and the registered lookup filters. -/
structure StenoDictionaryCollection (K V : Type) where
  dicts : List (StenoDictionary K V)
  filters : List (K → V → Bool)

/-- Loop body of `StenoDictionaryCollection.lookup` (steno_dictionary.py:
156-166): first enabled member containing the key wins; its value is checked
against every filter, and any filter hit returns `None` immediately. -/
def sdcLookupLoop (filters : List (K → V → Bool)) (key : K) :
    List (StenoDictionary K V) → Option V
  | [] => none
  | d :: rest =>
    if d.enabled = true then
      match lookupKV d.fwd key with
      | some value =>
        if filters.any (fun f => f key value) then none else some value
      | none => sdcLookupLoop filters key rest
    else sdcLookupLoop filters key rest

/-- `StenoDictionaryCollection.lookup(key)`. -/
def sdcLookup (c : StenoDictionaryCollection K V) (key : K) : Option V :=
  sdcLookupLoop c.filters key c.dicts

/-- Loop body of `StenoDictionaryCollection.raw_lookup` (steno_dictionary.py:
168-173): same priority search, no filters. -/
def sdcRawLookupLoop (key : K) :
    List (StenoDictionary K V) → Option V
  | [] => none
  | d :: rest =>
    if d.enabled = true then
      match lookupKV d.fwd key with
      | some value => some value
      | none => sdcRawLookupLoop key rest
    else sdcRawLookupLoop key rest

/-- `StenoDictionaryCollection.raw_lookup(key)`. -/
def sdcRawLookup (c : StenoDictionaryCollection K V) (key : K) : Option V :=
  sdcRawLookupLoop key c.dicts

theorem sdcLookupLoop_filtered (filters : List (K → V → Bool)) (key : K)
    (value : V) (ds : List (StenoDictionary K V))
    (hr : sdcRawLookupLoop key ds = some value)
    (hf : filters.any (fun f => f key value) = true) :
    sdcLookupLoop filters key ds = none := by
  induction ds with
  | nil => exact absurd hr (by simp [sdcRawLookupLoop])
  | cons d rest ih =>
    by_cases he : d.enabled = true
    · rw [sdcRawLookupLoop, if_pos he] at hr
      rw [sdcLookupLoop, if_pos he]
      cases hl : lookupKV d.fwd key with
      | some u =>
        rw [hl] at hr
        have hu : u = value := Option.some.inj hr
        subst hu
        simp [hf]
      | none =>
        rw [hl] at hr
        exact ih hr
    · rw [sdcRawLookupLoop, if_neg he] at hr
      rw [sdcLookupLoop, if_neg he]
      exact ih hr

/-- C5: if the first enabled member containing `key` (i.e. the `raw_lookup`
hit) carries a value on which some registered filter fires, then
`lookup(key)` returns `None` — the filtered hit masks the key entirely,
regardless of any lower-priority entries for the same key. -/
theorem c5_filtered_hit_masks (c : StenoDictionaryCollection K V) (key : K)
    (value : V) (hfirst : sdcRawLookup c key = some value)
    (hfilter : c.filters.any (fun f => f key value) = true) :
    sdcLookup c key = none :=
  sdcLookupLoop_filtered c.filters key value c.dicts hfirst hfilter

/-- Witness for C5: the higher-priority member maps key 1 to 10 and the
filter fires on value 10, so `lookup` masks the key even though the
lower-priority member holds the unfiltered entry `(1, 99)`. -/
theorem c5_filtered_hit_masks_witness :
    sdcLookup (StenoDictionaryCollection.mk
      [StenoDictionary.mk [((1:ℕ), (10:ℕ))] [(10, [1])] false true,
       StenoDictionary.mk [(1, 99)] [(99, [1])] false true]
      [fun _ v => decide (v = 10)]) 1 = none :=
  c5_filtered_hit_masks
    (StenoDictionaryCollection.mk
      [StenoDictionary.mk [((1:ℕ), (10:ℕ))] [(10, [1])] false true,
       StenoDictionary.mk [(1, 99)] [(99, [1])] false true]
      [fun _ v => decide (v = 10)]) 1 10 (by rfl) (by rfl)

/-- One iteration of `StenoDictionaryCollection.reverse_lookup`
(steno_dictionary.py:181-194): for an enabled member, first remove from the
accumulator every key the member contains as a forward key (they are
overridden), then union in the member's own reverse keys for the value.
The source's `if keys:` guard before the removal only skips work on an
empty accumulator (filtering the empty set is the identity). -/
def sdcReverseStep (v : V) (keys : Finset K) (d : StenoDictionary K V) :
    Finset K :=
  if d.enabled = true then
    (keys.filter (fun k => containsK d.fwd k = false)) ∪
      (sdReverseLookup d v).toFinset
  else keys

/-- `StenoDictionaryCollection.reverse_lookup(value)`: loop over the enabled
members from lowest to highest priority (`reversed(self.dicts)`),
accumulating a key set. -/
def sdcReverseLookup (c : StenoDictionaryCollection K V) (v : V) : Finset K :=
  c.dicts.reverse.foldl (sdcReverseStep v) ∅

theorem sdcReverseLookup_cons (d : StenoDictionary K V)
    (ds : List (StenoDictionary K V)) (v : V) :
    (StenoDictionaryCollection.mk (d :: ds) []).dicts.reverse.foldl
        (sdcReverseStep v) ∅ =
      sdcReverseStep v (ds.reverse.foldl (sdcReverseStep v) ∅) d := by
  show (d :: ds).reverse.foldl (sdcReverseStep v) ∅ = _
  rw [List.reverse_cons, List.foldl_append]
  rfl

/-- The claim's description of precedence-aware reverse lookup: key `k` is
reported for value `v` iff some enabled member maps `k` to `v` and no
enabled member of strictly higher priority (lower index) contains `k` as a
forward key at all. -/
def precedenceReverse (ds : List (StenoDictionary K V)) (v : V) (k : K) :
    Prop :=
  ∃ i : Fin ds.length, (ds.get i).enabled = true ∧
    lookupKV (ds.get i).fwd k = some v ∧
    ∀ j : Fin ds.length, (j : ℕ) < (i : ℕ) → (ds.get j).enabled = true →
      containsK (ds.get j).fwd k = false

theorem precedenceReverse_nil (v : V) (k : K) :
    ¬ precedenceReverse ([] : List (StenoDictionary K V)) v k := by
  rintro ⟨i, -⟩
  exact absurd i.2 (by simp)

theorem precedenceReverse_cons (d : StenoDictionary K V)
    (ds : List (StenoDictionary K V)) (v : V) (k : K) :
    precedenceReverse (d :: ds) v k ↔
      (d.enabled = true ∧ lookupKV d.fwd k = some v) ∨
      ((d.enabled = true → containsK d.fwd k = false) ∧
        precedenceReverse ds v k) := by
  constructor
  · rintro ⟨⟨iv, hi⟩, h1, h2, h3⟩
    cases iv with
    | zero =>
      left
      exact ⟨h1, h2⟩
    | succ n =>
      right
      have hn : n < ds.length := Nat.lt_of_succ_lt_succ hi
      refine ⟨fun hen => h3 ⟨0, Nat.succ_pos _⟩ (Nat.succ_pos _) hen, ?_⟩
      refine ⟨⟨n, hn⟩, h1, h2, ?_⟩
      intro j hj hej
      have := h3 ⟨(j : ℕ) + 1, Nat.succ_lt_succ j.2⟩
        (Nat.succ_lt_succ hj) hej
      exact this
  · rintro (⟨h1, h2⟩ | ⟨hd, ⟨⟨iv, hi⟩, h1, h2, h3⟩⟩)
    · refine ⟨⟨0, Nat.succ_pos _⟩, h1, h2, ?_⟩
      intro j hj _
      exact absurd hj (Nat.not_lt_zero _)
    · refine ⟨⟨iv + 1, Nat.succ_lt_succ hi⟩, h1, h2, ?_⟩
      intro j hj hej
      rcases j with ⟨jv, hjlen⟩
      cases jv with
      | zero => exact hd hej
      | succ m =>
        have hm : m < ds.length := Nat.lt_of_succ_lt_succ hjlen
        have hmi : m < iv := Nat.lt_of_succ_lt_succ hj
        exact h3 ⟨m, hm⟩ hmi hej

theorem sdcReverseLoop_spec (v : V) (k : K) :
    ∀ ds : List (StenoDictionary K V),
      (∀ d ∈ ds, ∀ w k', k' ∈ sdReverseLookup d w ↔ lookupKV d.fwd k' = some w) →
      (k ∈ ds.reverse.foldl (sdcReverseStep v) ∅ ↔ precedenceReverse ds v k) := by
  intro ds
  induction ds with
  | nil =>
    intro _
    simp only [List.reverse_nil, List.foldl_nil]
    constructor
    · intro hmem
      exact absurd hmem (Finset.not_mem_empty k)
    · intro hp
      exact absurd hp (precedenceReverse_nil v k)
  | cons d rest ih =>
    intro hm
    have hrec : (d :: rest).reverse.foldl (sdcReverseStep v) ∅ =
        sdcReverseStep v (rest.reverse.foldl (sdcReverseStep v) ∅) d := by
      rw [List.reverse_cons, List.foldl_append]
      rfl
    rw [hrec, precedenceReverse_cons]
    have ihr := ih (fun d' hd' => hm d' (List.mem_cons_of_mem _ hd'))
    have hd := hm d (List.mem_cons.mpr (Or.inl rfl))
    by_cases he : d.enabled = true
    · rw [show sdcReverseStep v (rest.reverse.foldl (sdcReverseStep v) ∅) d =
          ((rest.reverse.foldl (sdcReverseStep v) ∅).filter
            (fun k => containsK d.fwd k = false)) ∪
            (sdReverseLookup d v).toFinset from by
        unfold sdcReverseStep
        rw [if_pos he]]
      simp only [Finset.mem_union, Finset.mem_filter, List.mem_toFinset]
      rw [ihr, hd v k]
      constructor
      · rintro (⟨hp, hc⟩ | hl)
        · exact Or.inr ⟨fun _ => hc, hp⟩
        · exact Or.inl ⟨he, hl⟩
      · rintro (⟨_, hl⟩ | ⟨hc, hp⟩)
        · exact Or.inr hl
        · exact Or.inl ⟨hp, hc he⟩
    · rw [show sdcReverseStep v (rest.reverse.foldl (sdcReverseStep v) ∅) d =
          rest.reverse.foldl (sdcReverseStep v) ∅ from by
        unfold sdcReverseStep
        rw [if_neg he]]
      rw [ihr]
      constructor
      · intro hp
        exact Or.inr ⟨fun hen => absurd hen he, hp⟩
      · rintro (⟨hen, _⟩ | ⟨_, hp⟩)
        · exact absurd hen he
        · exact hp

/-- C2: provided every member's reverse index is the exact inverse of its
forward mapping (the invariant established for all reachable dictionaries),
`StenoDictionaryCollection.reverse_lookup(v)` returns exactly the keys `k`
such that some enabled member maps `k` to `v` and no enabled member of
strictly higher priority (lower index in `dicts`) contains `k` as a forward
key at all. -/
theorem c2_reverse_lookup_precedence (c : StenoDictionaryCollection K V)
    (hm : ∀ d ∈ c.dicts, ∀ w k', k' ∈ sdReverseLookup d w ↔
      lookupKV d.fwd k' = some w) (v : V) (k : K) :
    k ∈ sdcReverseLookup c v ↔ precedenceReverse c.dicts v k :=
  sdcReverseLoop_spec v k c.dicts hm

/-- Witness for C2: a collection with members `A = {1 ↦ false}` (priority 0)
and `B = {1 ↦ true, 2 ↦ true}` (priority 1), both reachable states, at
value `true` and key 2. -/
theorem c2_reverse_lookup_precedence_witness :
    2 ∈ sdcReverseLookup (StenoDictionaryCollection.mk
        [StenoDictionary.mk [((1:ℕ), false)] [(false, [1])] false true,
         StenoDictionary.mk [(1, true), (2, true)] [(true, [1, 2])] false true]
        []) true ↔
      precedenceReverse
        [StenoDictionary.mk [((1:ℕ), false)] [(false, [1])] false true,
         StenoDictionary.mk [(1, true), (2, true)] [(true, [1, 2])] false true]
        true 2 := by
  refine c2_reverse_lookup_precedence _ ?_ true 2
  intro d hd
  rcases List.mem_cons.mp hd with h | h
  · have hinv := sdExec_inv [DictOp.set 1 false] sdInit
      (StenoDictionary.mk [((1:ℕ), false)] [(false, [1])] false true)
      sdInv_init (by rfl)
    exact h ▸ hinv.2.2.2
  · rcases List.mem_cons.mp h with h' | h'
    · have hinv := sdExec_inv [DictOp.set 1 true, DictOp.set 2 true] sdInit
        (StenoDictionary.mk [((1:ℕ), true), (2, true)] [(true, [1, 2])] false true)
        sdInv_init (by rfl)
      exact h' ▸ hinv.2.2.2
    · exact absurd h' (List.not_mem_nil d)

/-- Counterexample for C3 as stated: with member A (priority 0) mapping key 1
to `"cat"` and member B (priority 1) mapping key 1 to `"dog"` and key 2 to
`"cat"`, `reverse_lookup("cat")` is `{1, 2}` — key 1 *is* reported, because
the highest-priority member containing it maps it to `"cat"` — so the result
is not `{2}`. -/
theorem c3_counterexample :
    sdcReverseLookup (StenoDictionaryCollection.mk
      [StenoDictionary.mk [((1:ℕ), "cat")] [("cat", [1])] false true,
       StenoDictionary.mk [(1, "dog"), (2, "cat")] [("dog", [1]), ("cat", [2])]
         false true] []) "cat" ≠ {2} := by
  decide

/-- C3 amended: in the scenario the spec intends ("A overrides K1 for a
different value"), member A (priority 0) maps key 1 to `"dog"` while member B
(priority 1) maps key 1 to `"cat"` and key 2 to `"cat"`; then
`reverse_lookup("cat")` returns exactly `{2}`, key 1 being excluded. -/
theorem c3_amended_override_excludes_key :
    sdcReverseLookup (StenoDictionaryCollection.mk
      [StenoDictionary.mk [((1:ℕ), "dog")] [("dog", [1])] false true,
       StenoDictionary.mk [(1, "cat"), (2, "cat")] [("cat", [1, 2])]
         false true] []) "cat" = {2} := by
  decide

/-! ### `normalize_stroke` (`plover/steno.py`) -/

/-- The keyboard-layout ("system") parameters consulted by
`normalize_stroke`: the explicit number key (a single-character key symbol)
and the character set `system.IMPLICIT_HYPHENS` (only single-character
members can intersect `set(stroke)`). -/
structure StenoSystem where
  NUMBER_KEY : Char
  IMPLICIT_HYPHENS : List Char

/-- `[1-4]` character class of `_IMPLICIT_NUMBER_RX`. -/
def in14 (c : Char) : Bool := '1' ≤ c && c ≤ '4'

/-- `[6-9]` character class of `_IMPLICIT_NUMBER_RX`. -/
def in69 (c : Char) : Bool := '6' ≤ c && c ≤ '9'

/-- Scan for a `[1-4][6-9]` adjacency, returning the index of the second
character of the leftmost match. -/
def findImplicitAux : Char → List Char → Nat → Option Nat
  | _, [], _ => none
  | prev, c :: rest, i =>
    if in14 prev && in69 c then some i else findImplicitAux c rest (i + 1)

/-- `m = _IMPLICIT_NUMBER_RX.search(stroke)` with
`_IMPLICIT_NUMBER_RX = (^|[1-4])([6-9])`: `some i` is `m.start(2)` of the
leftmost match (at the string start the empty `^` alternative is tried
first), `none` when there is no match. -/
def findImplicit : List Char → Option Nat
  | [] => none
  | c :: rest => if in69 c then some 0 else findImplicitAux c rest 1

/-- The hyphen block of `normalize_stroke` (steno.py:34-39).  `letters` is
`set(stroke)` built from the *original* text — the source never rebuilds it
after stripping the number key — while `cur` is the current text: drop a
single trailing hyphen, else remove every hyphen when an implicit-hyphen key
is present. -/
def hyphenRules (sys : StenoSystem) (letters cur : List Char) : List Char :=
  if '-' ∈ letters then
    if cur.getLast? = some '-' then cur.dropLast
    else if letters.any (fun c => decide (c ∈ sys.IMPLICIT_HYPHENS)) then
      cur.filter (fun c => decide (c ≠ '-'))
    else cur
  else cur

/-- `normalize_stroke(stroke)` (steno.py:24-39) over the characters of the
stroke: if any digit is present, strip the number key when it occurs, then,
if the implicit-number pattern matches, insert a hyphen before the second
matched key and return immediately; otherwise apply the hyphen rules. -/
def normalize_stroke (sys : StenoSystem) (stroke : List Char) : List Char :=
  if stroke.any Char.isDigit then
    let s1 := if sys.NUMBER_KEY ∈ stroke
              then stroke.filter (fun c => decide (c ≠ sys.NUMBER_KEY))
              else stroke
    match findImplicit s1 with
    | some i => s1.take i ++ '-' :: s1.drop i
    | none => hyphenRules sys stroke s1
  else hyphenRules sys stroke stroke

/-- Counterexample for C4: `normalize_stroke` is not idempotent on every
string.  On `"--"` (no digits, trailing hyphen) the code drops exactly one
trailing hyphen per call: `"--" ↦ "-" ↦ ""`. -/
theorem c4_counterexample :
    normalize_stroke ⟨'#', []⟩ (normalize_stroke ⟨'#', []⟩ ['-', '-']) ≠
      normalize_stroke ⟨'#', []⟩ ['-', '-'] := by
  decide

theorem any_digit_filter_false (s : List Char) (p : Char → Bool)
    (h : s.any Char.isDigit = false) :
    (s.filter p).any Char.isDigit = false := by
  rw [List.any_eq_false] at h ⊢
  intro c hc
  exact h c (List.mem_of_mem_filter hc)

theorem not_mem_filter_ne_self (s : List Char) :
    '-' ∉ s.filter (fun c => decide (c ≠ '-')) := by
  intro hmem
  rw [List.mem_filter] at hmem
  have := hmem.2
  simp at this

/-- C4 amended: `normalize_stroke` is idempotent on every stroke text that
contains no digit character and does not end in a hyphen (for any system).
The digit branch can insert a hyphen that enables a further rewrite, and a
trailing hyphen is stripped only one character per call, so idempotence does
not hold unconditionally. -/
theorem c4_amended_idempotent (sys : StenoSystem) (s : List Char)
    (hdig : s.any Char.isDigit = false)
    (hlast : s.getLast? ≠ some '-') :
    normalize_stroke sys (normalize_stroke sys s) = normalize_stroke sys s := by
  have hdig' : ¬ (s.any Char.isDigit = true) := by simp [hdig]
  have h1 : normalize_stroke sys s = hyphenRules sys s s := by
    unfold normalize_stroke
    rw [if_neg hdig']
  rw [h1]
  unfold hyphenRules
  by_cases hm : '-' ∈ s
  · rw [if_pos hm, if_neg hlast]
    by_cases hih : s.any (fun c => decide (c ∈ sys.IMPLICIT_HYPHENS)) = true
    · rw [if_pos hih]
      have hrd : (s.filter (fun c => decide (c ≠ '-'))).any Char.isDigit = false :=
        any_digit_filter_false s _ hdig
      have hrd' : ¬ ((s.filter (fun c => decide (c ≠ '-'))).any Char.isDigit = true) :=
        ne_true_of_eq_false hrd
      unfold normalize_stroke
      rw [if_neg hrd']
      unfold hyphenRules
      rw [if_neg (not_mem_filter_ne_self s)]
    · rw [if_neg hih]
      rw [h1]
      unfold hyphenRules
      rw [if_pos hm, if_neg hlast, if_neg hih]
  · rw [if_neg hm]
    rw [h1]
    unfold hyphenRules
    rw [if_neg hm]

/-- Witness for C4 amended: the stroke `"A-B"` under a system whose
implicit-hyphen set is `{'A'}` contains no digit and no trailing hyphen. -/
theorem c4_amended_idempotent_witness :
    normalize_stroke ⟨'#', ['A']⟩ (normalize_stroke ⟨'#', ['A']⟩ ['A', '-', 'B']) =
      normalize_stroke ⟨'#', ['A']⟩ ['A', '-', 'B'] :=
  c4_amended_idempotent ⟨'#', ['A']⟩ ['A', '-', 'B'] (by decide) (by decide)

/-! ### `SimilarSearchDict` (`plover/dictionary/base.py`)

The structure holds the exact-match hash map (`dict`), the auxiliary list of
`(similarity key, raw key)` tuples (`_list`), the dirty flag
(`_needs_sorting`) and the similarity function (`_simfn`).  Tuples compare
in Python's lexicographic order, keys being totally orderable before and
after the similarity transform. -/

section SimilarSearch

variable {S : Type} [LinearOrder K] [LinearOrder S]

/-- Python `(sk, rk) <= (sk', rk')` tuple comparison. -/
def pairLe (a b : S × K) : Prop :=
  a.1 < b.1 ∨ (a.1 = b.1 ∧ a.2 ≤ b.2)

/-- Python `(sk, rk) < (sk', rk')` tuple comparison. -/
def pairLt (a b : S × K) : Prop :=
  a.1 < b.1 ∨ (a.1 = b.1 ∧ a.2 < b.2)

instance pairLeDecidable : DecidableRel (pairLe (S := S) (K := K)) := by
  intro a b
  unfold pairLe
  infer_instance

instance pairLtDecidable : DecidableRel (pairLt (S := S) (K := K)) := by
  intro a b
  unfold pairLt
  infer_instance

instance pairLeIsTotal : IsTotal (S × K) pairLe := by
  constructor
  intro a b
  rcases lt_trichotomy a.1 b.1 with h | h | h
  · exact Or.inl (Or.inl h)
  · rcases le_total a.2 b.2 with h2 | h2
    · exact Or.inl (Or.inr ⟨h, h2⟩)
    · exact Or.inr (Or.inr ⟨h.symm, h2⟩)
  · exact Or.inr (Or.inl h)

instance pairLeIsTrans : IsTrans (S × K) pairLe := by
  constructor
  rintro a b c (hab | ⟨hab1, hab2⟩) (hbc | ⟨hbc1, hbc2⟩)
  · exact Or.inl (lt_trans hab hbc)
  · exact Or.inl (hbc1 ▸ hab)
  · exact Or.inl (hab1 ▸ hbc)
  · exact Or.inr ⟨hab1.trans hbc1, hab2.trans hbc2⟩

theorem pairLt_irrefl (a : S × K) : ¬ pairLt a a := by
  rintro (h | ⟨-, h⟩) <;> exact lt_irrefl _ h

theorem pairLt_ne (a b : S × K) (h : pairLt a b) : a ≠ b := by
  rintro rfl
  exact pairLt_irrefl a h

theorem pairLe_not_lt_eq (a b : S × K) (hle : pairLe a b) (hlt : ¬ pairLt a b) :
    a = b := by
  rcases hle with h | ⟨h1, h2⟩
  · exact absurd (Or.inl h) hlt
  · have h3 : a.2 = b.2 := by
      rcases lt_or_eq_of_le h2 with h' | h'
      · exact absurd (Or.inr ⟨h1, h'⟩) hlt
      · exact h'
    exact Prod.ext h1 h3

/-- State of a `SimilarSearchDict`. -/
structure SimilarSearchDict (K V S : Type) where
  dict : List (K × V)
  list : List (S × K)
  needs_sorting : Bool
  simfn : K → S

/-- `SimilarSearchDict.__init__(simfn)` with no initial items. -/
def ssdInit (sf : K → S) : SimilarSearchDict K V S :=
  ⟨[], [], false, sf⟩

/-- `SimilarSearchDict.__setitem__` (base.py:110-115): a new key appends
`(simfn(k), k)` to the list and marks it dirty; the hash map is always
updated. -/
def ssdSetitem (d : SimilarSearchDict K V S) (k : K) (v : V) :
    SimilarSearchDict K V S :=
  if containsK d.dict k then { d with dict := setKV d.dict k v }
  else { d with dict := setKV d.dict k v,
                list := d.list ++ [(d.simfn k, k)],
                needs_sorting := true }

/-- `SimilarSearchDict.sort` (base.py:142-145): sort the tuple list, clear
the dirty flag. -/
def ssdSort (d : SimilarSearchDict K V S) : SimilarSearchDict K V S :=
  { d with list := List.insertionSort pairLe d.list, needs_sorting := false }

/-- Sort on demand, as done by `__delitem__` and `_index_left`. -/
def ssdSortIfNeeded (d : SimilarSearchDict K V S) : SimilarSearchDict K V S :=
  if d.needs_sorting then ssdSort d else d

/-- `bisect_left(_list, (sim, k))` on the sorted list: number of tuples
strictly smaller than the probe (binary search modelled by its
specification). -/
def bisectPair (l : List (S × K)) (x : S × K) : Nat :=
  (l.takeWhile (fun e => decide (pairLt e x))).length

/-- `bisect_left(_list, (simkey,))`: a 1-tuple `(s,)` exceeds exactly the
tuples whose first component is `< s`. -/
def bisectSim (l : List (S × K)) (s : S) : Nat :=
  (l.takeWhile (fun e => decide (e.1 < s))).length

/-- `SimilarSearchDict.__delitem__` (base.py:117-129): when the key exists,
delete it from the hash map, sort the list if dirty, and remove the entry
located by bisection; an absent key is silently ignored. -/
def ssdDelitem (d : SimilarSearchDict K V S) (k : K) :
    SimilarSearchDict K V S :=
  if containsK d.dict k then
    let d1 : SimilarSearchDict K V S := { d with dict := delKV d.dict k }
    let d2 := if d1.needs_sorting then ssdSort d1 else d1
    { d2 with list := d2.list.eraseIdx (bisectPair d2.list (d2.simfn k, k)) }
  else d

/-- The scan loop of `SimilarSearchDict.filter_keys` (base.py:161-169):
collect raw keys while the optional filter accepts the similarity key,
stopping once the optional count is reached (checked after appending). -/
def ssdFilterLoop (ff : Option (S → S → Bool)) (simkey : S)
    (count : Option Nat) : List (S × K) → List K → List K
  | [], keys => keys
  | (sk, rk) :: rest, keys =>
    if (match ff with | some f => !(f sk simkey) | none => false) then keys
    else
      if (match count with
          | some c => decide ((keys ++ [rk]).length ≥ c)
          | none => false) then keys ++ [rk]
      else ssdFilterLoop ff simkey count rest (keys ++ [rk])

/-- `SimilarSearchDict.filter_keys(k, count, filterfn)` (base.py:154-170):
sort if needed (`_index_left`), bisect to the first tuple whose similarity
key is not below `simfn(k)`, then scan.  The source also caches the sorted
list back into `self._list` and clears the dirty flag; that state change
affects no returned keys and no later operation's result (every reader
re-sorts on demand), so the query is modelled as returning the keys only. -/
def ssdFilterKeys (d : SimilarSearchDict K V S) (k : K) (count : Option Nat)
    (ff : Option (S → S → Bool)) : List K :=
  let d1 := ssdSortIfNeeded d
  ssdFilterLoop ff (d.simfn k) count
    (d1.list.drop (bisectSim d1.list (d.simfn k))) []

/-- `SimilarSearchDict.get_similar_keys(k, count)` (base.py:172-174):
`filter_keys` with `operator.eq` on similarity keys. -/
def ssdGetSimilarKeys (d : SimilarSearchDict K V S) (k : K)
    (count : Option Nat) : List K :=
  ssdFilterKeys d k count (some (fun a b => decide (a = b)))

/-- `SimilarSearchDict.setdefault` (base.py:177): `return
NotImplementedError` — returns the class, raises nothing, mutates nothing. -/
def ssdSetdefault (d : SimilarSearchDict K V S) (_k : K) (_default : Option V) :
    PyValue × SimilarSearchDict K V S :=
  (PyValue.notImplementedErrorClass, d)

/-- `SimilarSearchDict.pop` (base.py:178): `return NotImplementedError`. -/
def ssdPop (d : SimilarSearchDict K V S) (_k : K) :
    PyValue × SimilarSearchDict K V S :=
  (PyValue.notImplementedErrorClass, d)

/-- `SimilarSearchDict.popitem` (base.py:179): `return NotImplementedError`. -/
def ssdPopitem (d : SimilarSearchDict K V S) :
    PyValue × SimilarSearchDict K V S :=
  (PyValue.notImplementedErrorClass, d)

/-- One mutation applied to a `SimilarSearchDict`. -/
inductive SSDOp (K V : Type) : Type
  | set (k : K) (v : V)
  | del (k : K)

/-- Run one `SSDOp` (neither operation can raise: `__delitem__` silently
ignores absent keys). -/
def ssdApply (d : SimilarSearchDict K V S) : SSDOp K V →
    SimilarSearchDict K V S
  | SSDOp.set k v => ssdSetitem d k v
  | SSDOp.del k => ssdDelitem d k

/-- Build a `SimilarSearchDict` from empty by a finite operation sequence. -/
def ssdExec (sf : K → S) (ops : List (SSDOp K V)) : SimilarSearchDict K V S :=
  ops.foldl ssdApply (ssdInit sf)

end SimilarSearch

section SimilarSearchProofs

variable {S : Type} [LinearOrder K] [LinearOrder S]

/-- C10: deleting an absent key from a `SimilarSearchDict` is a silent
no-op — `__delitem__` returns normally (its absent branch contains no raise)
and leaves the exact-match mapping, the auxiliary list, the dirty flag and
the similarity function unchanged. -/
theorem c10_delitem_absent_noop (d : SimilarSearchDict K V S) (k : K)
    (h : containsK d.dict k = false) : ssdDelitem d k = d := by
  unfold ssdDelitem
  rw [if_neg (ne_true_of_eq_false h)]

/-- Witness for C10: deleting key 5, absent from `{1 ↦ 2}`, changes
nothing. -/
theorem c10_delitem_absent_noop_witness :
    ssdDelitem (SimilarSearchDict.mk [((1:ℕ), (2:ℕ))] [(1, 1)] true
      (fun n : ℕ => n)) 5 =
      SimilarSearchDict.mk [((1:ℕ), (2:ℕ))] [(1, 1)] true (fun n : ℕ => n) :=
  c10_delitem_absent_noop
    (SimilarSearchDict.mk [((1:ℕ), (2:ℕ))] [(1, 1)] true (fun n : ℕ => n)) 5
    (by rfl)

theorem containsK_cons (k₁ k : K) (v₁ : V) (rest : List (K × V)) :
    containsK ((k₁, v₁) :: rest) k = if k₁ = k then true else containsK rest k := by
  by_cases h : k₁ = k <;> simp [containsK, lookupKV, h]

theorem containsK_iff (l : List (K × V)) (k : K) :
    containsK l k = true ↔ ∃ v, (k, v) ∈ l := by
  induction l with
  | nil => simp [containsK, lookupKV]
  | cons p rest ih =>
    obtain ⟨k₁, v₁⟩ := p
    rw [containsK_cons]
    by_cases h : k₁ = k
    · subst h
      simp
    · rw [if_neg h, ih]
      constructor
      · rintro ⟨v, hv⟩
        exact ⟨v, List.mem_cons_of_mem _ hv⟩
      · rintro ⟨v, hv⟩
        rcases List.mem_cons.mp hv with hv | hv
        · exact absurd (congrArg Prod.fst hv).symm h
        · exact ⟨v, hv⟩

/-- Invariant of a reachable `SimilarSearchDict`: the auxiliary list is a
permutation of the `(simfn key, key)` image of the hash map, and it is
sorted whenever the dirty flag is clear. -/
def ssdInv (d : SimilarSearchDict K V S) : Prop :=
  d.list.Perm (d.dict.map (fun p => (d.simfn p.1, p.1))) ∧
  (d.needs_sorting = false → List.Sorted pairLe d.list)

theorem ssdInv_init (sf : K → S) : ssdInv (ssdInit sf : SimilarSearchDict K V S) := by
  constructor
  · simp [ssdInit]
  · intro _
    exact List.sorted_nil

theorem map_pair_setKV_present (dict : List (K × V)) (k : K) (v : V)
    (sf : K → S) (h : containsK dict k = true) :
    (setKV dict k v).map (fun p => (sf p.1, p.1)) =
      dict.map (fun p => (sf p.1, p.1)) := by
  induction dict with
  | nil => simp [containsK, lookupKV] at h
  | cons p rest ih =>
    obtain ⟨k₁, v₁⟩ := p
    by_cases h1 : k₁ = k
    · subst h1
      simp [setKV]
    · rw [containsK_cons, if_neg h1] at h
      simp [setKV, h1, ih h]

theorem map_pair_setKV_absent (dict : List (K × V)) (k : K) (v : V)
    (sf : K → S) (h : containsK dict k = false) :
    (setKV dict k v).map (fun p => (sf p.1, p.1)) =
      dict.map (fun p => (sf p.1, p.1)) ++ [(sf k, k)] := by
  induction dict with
  | nil => simp [setKV]
  | cons p rest ih =>
    obtain ⟨k₁, v₁⟩ := p
    by_cases h1 : k₁ = k
    · subst h1
      rw [containsK_cons, if_pos rfl] at h
      exact absurd h (by simp)
    · rw [containsK_cons, if_neg h1] at h
      simp [setKV, h1, ih h]

theorem ssdSetitem_inv (d : SimilarSearchDict K V S) (k : K) (v : V)
    (hinv : ssdInv d) : ssdInv (ssdSetitem d k v) := by
  obtain ⟨hperm, hsort⟩ := hinv
  unfold ssdSetitem
  by_cases hc : containsK d.dict k = true
  · rw [if_pos hc]
    constructor
    · show d.list.Perm ((setKV d.dict k v).map (fun p => (d.simfn p.1, p.1)))
      rw [map_pair_setKV_present d.dict k v d.simfn hc]
      exact hperm
    · exact hsort
  · rw [if_neg hc]
    constructor
    · show (d.list ++ [(d.simfn k, k)]).Perm
        ((setKV d.dict k v).map (fun p => (d.simfn p.1, p.1)))
      rw [map_pair_setKV_absent d.dict k v d.simfn (Bool.eq_false_iff.mpr hc)]
      exact hperm.append_right [(d.simfn k, k)]
    · intro hfalse
      exact absurd hfalse (by simp)
end SimilarSearchProofs

section SimilarSearchDelete

variable {S : Type} [LinearOrder K] [LinearOrder S]

theorem dropWhile_head_false {α : Type} (p : α → Bool) :
    ∀ (l : List α) (h : α) (t : List α), l.dropWhile p = h :: t → p h = false := by
  intro l
  induction l with
  | nil =>
    intro h t hd
    exact absurd hd (by simp)
  | cons a rest ih =>
    intro h t hd
    by_cases hp : p a = true
    · rw [List.dropWhile_cons_of_pos hp] at hd
      exact ih h t hd
    · rw [List.dropWhile_cons_of_neg hp] at hd
      have ha : a = h := (List.cons.inj hd).1
      rw [← ha]
      exact Bool.eq_false_iff.mpr hp

theorem pairLe_fst_le (a b : S × K) (h : pairLe a b) : a.1 ≤ b.1 := by
  rcases h with h | ⟨h, -⟩
  · exact le_of_lt h
  · exact le_of_eq h

theorem sorted_dropWhile_head (l : List (S × K)) (x : S × K)
    (hs : List.Sorted pairLe l) (hx : x ∈ l) :
    l.dropWhile (fun e => decide (pairLt e x)) =
      x :: (l.dropWhile (fun e => decide (pairLt e x))).tail := by
  have hxt : x ∉ l.takeWhile (fun e => decide (pairLt e x)) := by
    intro hmem
    have hh := List.mem_takeWhile_imp hmem
    rw [decide_eq_true_eq] at hh
    exact pairLt_irrefl x hh
  have hxd : x ∈ l.dropWhile (fun e => decide (pairLt e x)) := by
    have hsplit := List.takeWhile_append_dropWhile
      (fun e => decide (pairLt e x)) l
    have hmem : x ∈ l.takeWhile (fun e => decide (pairLt e x)) ++
        l.dropWhile (fun e => decide (pairLt e x)) := by
      rw [hsplit]
      exact hx
    rcases List.mem_append.mp hmem with h | h
    · exact absurd h hxt
    · exact h
  cases hd : l.dropWhile (fun e => decide (pairLt e x)) with
  | nil =>
    rw [hd] at hxd
    exact absurd hxd (List.not_mem_nil x)
  | cons h t =>
    have hph : decide (pairLt h x) = false := dropWhile_head_false _ l h t hd
    have hnlt : ¬ pairLt h x := of_decide_eq_false hph
    have hsd : List.Sorted pairLe (h :: t) := by
      rw [← hd]
      exact hs.sublist (List.dropWhile_sublist _)
    rw [hd] at hxd
    rcases List.mem_cons.mp hxd with hxh | hxt'
    · rw [← hxh]
      simp
    · have hle : pairLe h x := (List.sorted_cons.mp hsd).1 x hxt'
      have hhx : h = x := pairLe_not_lt_eq h x hle hnlt
      rw [hhx]
      simp

theorem eraseIdx_concat {α : Type} (x : α) :
    ∀ (t r : List α), (t ++ x :: r).eraseIdx t.length = t ++ r := by
  intro t
  induction t with
  | nil =>
    intro r
    simp [List.eraseIdx]
  | cons a t' ih =>
    intro r
    show ((a :: t') ++ x :: r).eraseIdx (t'.length + 1) = a :: (t' ++ r)
    rw [List.cons_append]
    show a :: ((t' ++ x :: r).eraseIdx t'.length) = a :: (t' ++ r)
    rw [ih r]

theorem eraseFirst_append_notmem {α : Type} [DecidableEq α] (x : α) :
    ∀ (t r : List α), x ∉ t → eraseFirst (t ++ x :: r) x = t ++ r := by
  intro t
  induction t with
  | nil =>
    intro r _
    simp [eraseFirst]
  | cons a t' ih =>
    intro r hxt
    have hax : ¬ a = x := fun hh => hxt (hh ▸ List.mem_cons.mpr (Or.inl rfl))
    rw [List.cons_append]
    show (if a = x then t' ++ x :: r else a :: eraseFirst (t' ++ x :: r) x) =
      a :: (t' ++ r)
    rw [if_neg hax, ih r (fun hh => hxt (List.mem_cons_of_mem _ hh))]

theorem perm_eraseFirst {α : Type} [DecidableEq α] (a : α)
    {l₁ l₂ : List α} (h : l₁.Perm l₂) :
    (eraseFirst l₁ a).Perm (eraseFirst l₂ a) := by
  induction h with
  | nil => exact List.Perm.refl _
  | cons x h ih =>
    by_cases hx : x = a
    · simp only [eraseFirst, if_pos hx]
      exact h
    · simp only [eraseFirst, if_neg hx]
      exact ih.cons x
  | swap x y l =>
    by_cases hy : y = a
    · by_cases hx : x = a
      · simp only [eraseFirst, if_pos hx, if_pos hy]
        rw [hx, hy]
      · simp only [eraseFirst, if_pos hy, if_neg hx]
        exact List.Perm.refl _
    · by_cases hx : x = a
      · simp only [eraseFirst, if_pos hx, if_neg hy]
        exact List.Perm.refl _
      · simp only [eraseFirst, if_neg hx, if_neg hy]
        exact List.Perm.swap x y (eraseFirst l a)
  | trans h1 h2 ih1 ih2 => exact ih1.trans ih2

theorem eraseIdx_bisect_eq_eraseFirst (l : List (S × K)) (x : S × K)
    (hs : List.Sorted pairLe l) (hx : x ∈ l) :
    l.eraseIdx (bisectPair l x) = eraseFirst l x := by
  have hdrop := sorted_dropWhile_head l x hs hx
  have hxt : x ∉ l.takeWhile (fun e => decide (pairLt e x)) := by
    intro hmem
    have hh := List.mem_takeWhile_imp hmem
    rw [decide_eq_true_eq] at hh
    exact pairLt_irrefl x hh
  have hl : l = l.takeWhile (fun e => decide (pairLt e x)) ++
      x :: (l.dropWhile (fun e => decide (pairLt e x))).tail := by
    conv_lhs => rw [← List.takeWhile_append_dropWhile
      (fun e => decide (pairLt e x)) l, hdrop]
  have key1 := eraseIdx_concat x (l.takeWhile (fun e => decide (pairLt e x)))
    ((l.dropWhile (fun e => decide (pairLt e x))).tail)
  have key2 := eraseFirst_append_notmem x
    (l.takeWhile (fun e => decide (pairLt e x)))
    ((l.dropWhile (fun e => decide (pairLt e x))).tail) hxt
  rw [← hl] at key1 key2
  rw [show bisectPair l x =
    (l.takeWhile (fun e => decide (pairLt e x))).length from rfl]
  rw [key1]
  exact key2.symm

end SimilarSearchDelete

section SimilarSearchInvariant

variable {S : Type} [LinearOrder K] [LinearOrder S]

theorem map_pair_delKV (dict : List (K × V)) (k : K) (sf : K → S) :
    (delKV dict k).map (fun p => (sf p.1, p.1)) =
      eraseFirst (dict.map (fun p => (sf p.1, p.1))) (sf k, k) := by
  induction dict with
  | nil => simp [delKV, eraseFirst]
  | cons p rest ih =>
    obtain ⟨k₁, v₁⟩ := p
    by_cases h1 : k₁ = k
    · subst h1
      simp [delKV, eraseFirst]
    · have hne : ¬ ((sf k₁, k₁) = (sf k, k)) := by
        intro hh
        exact h1 (congrArg Prod.snd hh)
      simp only [delKV, if_neg h1, List.map_cons]
      rw [show eraseFirst ((sf k₁, k₁) :: rest.map (fun p => (sf p.1, p.1)))
          (sf k, k) =
        (sf k₁, k₁) :: eraseFirst (rest.map (fun p => (sf p.1, p.1)))
          (sf k, k) from by
        simp only [eraseFirst, if_neg hne]]
      rw [ih]

theorem ssdDelitem_core (dict : List (K × V)) (k : K) (sf : K → S)
    (L : List (S × K))
    (hL : L.Perm (dict.map (fun p => (sf p.1, p.1))))
    (hs : List.Sorted pairLe L) (hc : containsK dict k = true) :
    (L.eraseIdx (bisectPair L (sf k, k))).Perm
        ((delKV dict k).map (fun p => (sf p.1, p.1))) ∧
      List.Sorted pairLe (L.eraseIdx (bisectPair L (sf k, k))) := by
  have hx : (sf k, k) ∈ L := by
    rcases (containsK_iff dict k).mp hc with ⟨v, hv⟩
    exact hL.mem_iff.mpr (List.mem_map.mpr ⟨(k, v), hv, rfl⟩)
  constructor
  · rw [eraseIdx_bisect_eq_eraseFirst L _ hs hx, map_pair_delKV]
    exact perm_eraseFirst _ hL
  · exact hs.sublist (List.eraseIdx_sublist L _)

theorem ssdDelitem_inv (d : SimilarSearchDict K V S) (k : K)
    (hinv : ssdInv d) : ssdInv (ssdDelitem d k) := by
  obtain ⟨hperm, hsort⟩ := hinv
  by_cases hc : containsK d.dict k = true
  · by_cases hn : d.needs_sorting = true
    · have hred : ssdDelitem d k = SimilarSearchDict.mk (delKV d.dict k)
          ((List.insertionSort pairLe d.list).eraseIdx
            (bisectPair (List.insertionSort pairLe d.list) (d.simfn k, k)))
          false d.simfn := by
        simp only [ssdDelitem, hc, if_true, ssdSort]
        rw [if_pos (show ({ d with dict := delKV d.dict k } :
          SimilarSearchDict K V S).needs_sorting = true from hn)]
      rw [hred]
      have hLp : (List.insertionSort pairLe d.list).Perm
          (d.dict.map (fun p => (d.simfn p.1, p.1))) :=
        (List.perm_insertionSort pairLe d.list).trans hperm
      have hLs : List.Sorted pairLe (List.insertionSort pairLe d.list) :=
        List.sorted_insertionSort pairLe d.list
      obtain ⟨h1, h2⟩ := ssdDelitem_core d.dict k d.simfn _ hLp hLs hc
      exact ⟨h1, fun _ => h2⟩
    · have hred : ssdDelitem d k = SimilarSearchDict.mk (delKV d.dict k)
          (d.list.eraseIdx (bisectPair d.list (d.simfn k, k)))
          d.needs_sorting d.simfn := by
        simp only [ssdDelitem, hc, if_true, ssdSort]
        rw [if_neg (show ¬ ({ d with dict := delKV d.dict k } :
          SimilarSearchDict K V S).needs_sorting = true from hn)]
      rw [hred]
      have hLs : List.Sorted pairLe d.list :=
        hsort (Bool.eq_false_iff.mpr hn)
      obtain ⟨h1, h2⟩ := ssdDelitem_core d.dict k d.simfn _ hperm hLs hc
      exact ⟨h1, fun _ => h2⟩
  · have hred : ssdDelitem d k = d := by
      unfold ssdDelitem
      rw [if_neg hc]
    rw [hred]
    exact ⟨hperm, hsort⟩

end SimilarSearchInvariant

section SimilarSearchQuery

variable {S : Type} [LinearOrder K] [LinearOrder S]

theorem ssdFilterLoop_nil (ff : Option (S → S → Bool)) (s : S)
    (count : Option Nat) (keys : List K) :
    ssdFilterLoop (S := S) (K := K) ff s count [] keys = keys := rfl

theorem ssdFilterLoop_cons_none_some (f : S → S → Bool) (s sk : S) (rk : K)
    (rest : List (S × K)) (keys : List K) :
    ssdFilterLoop (some f) s none ((sk, rk) :: rest) keys =
      if f sk s = false then keys
      else ssdFilterLoop (some f) s none rest (keys ++ [rk]) := by
  by_cases hf : f sk s = true
  · simp [ssdFilterLoop, hf]
  · simp [ssdFilterLoop, Bool.eq_false_iff.mpr hf]

theorem ssdFilterLoop_acc (f : S → S → Bool) (s : S) :
    ∀ (m : List (S × K)) (keys : List K),
      ssdFilterLoop (some f) s none m keys =
        keys ++ ssdFilterLoop (some f) s none m [] := by
  intro m
  induction m with
  | nil =>
    intro keys
    simp [ssdFilterLoop_nil]
  | cons e rest ih =>
    obtain ⟨sk, rk⟩ := e
    intro keys
    rw [ssdFilterLoop_cons_none_some, ssdFilterLoop_cons_none_some]
    by_cases hf : f sk s = false
    · rw [if_pos hf, if_pos hf]
      simp
    · rw [if_neg hf, if_neg hf]
      rw [ih (keys ++ [rk]), ih ([] ++ [rk])]
      simp

theorem mem_ssdFilterLoop_eq (s : S) :
    ∀ m : List (S × K), List.Sorted pairLe m → (∀ e ∈ m, ¬ (e.1 < s)) →
      ∀ k', (k' ∈ ssdFilterLoop (some (fun a b => decide (a = b))) s none m []
        ↔ ∃ e ∈ m, e.1 = s ∧ e.2 = k') := by
  intro m
  induction m with
  | nil =>
    intro _ _ k'
    simp [ssdFilterLoop_nil]
  | cons e rest ih =>
    obtain ⟨sk, rk⟩ := e
    intro hs hge k'
    rw [ssdFilterLoop_cons_none_some]
    by_cases hsk : sk = s
    · rw [if_neg (by simp [hsk])]
      rw [ssdFilterLoop_acc]
      have hrest := ih (List.sorted_cons.mp hs).2
        (fun e he => hge e (List.mem_cons_of_mem _ he)) k'
      simp only [List.nil_append]
      constructor
      · intro hmem
        rcases List.mem_cons.mp hmem with hm | hm
        · exact ⟨(sk, rk), List.mem_cons.mpr (Or.inl rfl), hsk, hm.symm⟩
        · rcases hrest.mp hm with ⟨e, he, h1, h2⟩
          exact ⟨e, List.mem_cons_of_mem _ he, h1, h2⟩
      · rintro ⟨e, he, h1, h2⟩
        rcases List.mem_cons.mp he with hm | hm
        · rw [hm] at h2
          exact List.mem_cons.mpr (Or.inl h2.symm)
        · exact List.mem_cons_of_mem _ (hrest.mpr ⟨e, hm, h1, h2⟩)
    · rw [if_pos (by simp [hsk])]
      constructor
      · intro hmem
        exact absurd hmem (List.not_mem_nil k')
      · rintro ⟨e, he, h1, h2⟩
        rcases List.mem_cons.mp he with hm | hm
        · rw [hm] at h1
          exact absurd h1 hsk
        · have hgesk : ¬ (sk < s) := hge (sk, rk) (List.mem_cons.mpr (Or.inl rfl))
          have hlee : pairLe (sk, rk) e := (List.sorted_cons.mp hs).1 e hm
          have hfst : sk ≤ e.1 := pairLe_fst_le (sk, rk) e hlee
          have hes : s < e.1 → False := by
            intro hgt
            rw [h1] at hgt
            exact lt_irrefl s hgt
          rcases lt_trichotomy sk s with h' | h' | h'
          · exact absurd h' hgesk
          · exact absurd h' hsk
          · exact absurd h1 (ne_of_gt (lt_of_lt_of_le h' hfst))

theorem mem_not_lt_dropWhile (s : S) :
    ∀ l : List (S × K), List.Sorted pairLe l →
      ∀ e ∈ l.dropWhile (fun e => decide (e.1 < s)), ¬ (e.1 < s) := by
  intro l
  induction l with
  | nil =>
    intro _ e he
    simp at he
  | cons a rest ih =>
    intro hs e he
    cases hb : decide (a.1 < s) with
    | true =>
      simp only [List.dropWhile_cons, hb] at he
      simp only [if_true] at he
      exact ih (List.sorted_cons.mp hs).2 e he
    | false =>
      simp only [List.dropWhile_cons, hb] at he
      simp only [Bool.false_eq_true, if_false] at he
      have hna : ¬ (a.1 < s) := by
        intro hlt
        rw [decide_eq_true hlt] at hb
        exact Bool.noConfusion hb
      rcases List.mem_cons.mp he with hm | hm
      · rw [hm]
        exact hna
      · have hle : pairLe a e := (List.sorted_cons.mp hs).1 e hm
        have hfst : a.1 ≤ e.1 := pairLe_fst_le a e hle
        intro hlt
        exact hna (lt_of_le_of_lt hfst hlt)

theorem drop_length_takeWhile {α : Type} (p : α → Bool) :
    ∀ l : List α, l.drop (l.takeWhile p).length = l.dropWhile p := by
  intro l
  induction l with
  | nil => simp
  | cons a rest ih =>
    by_cases hp : p a = true
    · rw [List.takeWhile_cons_of_pos hp, List.dropWhile_cons_of_pos hp]
      simpa using ih
    · rw [List.takeWhile_cons_of_neg hp, List.dropWhile_cons_of_neg hp]
      simp

end SimilarSearchQuery

section SimilarSearchMain

variable {S : Type} [LinearOrder K] [LinearOrder S]

theorem ssdGetSimilarKeys_mem (d : SimilarSearchDict K V S) (hinv : ssdInv d)
    (k k' : K) :
    k' ∈ ssdGetSimilarKeys d k none ↔
      (containsK d.dict k' = true ∧ d.simfn k' = d.simfn k) := by
  obtain ⟨hperm, hsort⟩ := hinv
  have hfacts : (ssdSortIfNeeded d).list.Perm d.list ∧
      List.Sorted pairLe (ssdSortIfNeeded d).list := by
    unfold ssdSortIfNeeded
    by_cases hn : d.needs_sorting = true
    · rw [if_pos hn]
      exact ⟨List.perm_insertionSort pairLe d.list,
        List.sorted_insertionSort pairLe d.list⟩
    · rw [if_neg hn]
      exact ⟨List.Perm.refl _, hsort (Bool.eq_false_iff.mpr hn)⟩
  obtain ⟨hp1, hs1⟩ := hfacts
  show k' ∈ ssdFilterLoop (some (fun a b => decide (a = b))) (d.simfn k) none
      ((ssdSortIfNeeded d).list.drop
        (bisectSim (ssdSortIfNeeded d).list (d.simfn k))) [] ↔ _
  rw [show (ssdSortIfNeeded d).list.drop
      (bisectSim (ssdSortIfNeeded d).list (d.simfn k)) =
      (ssdSortIfNeeded d).list.dropWhile
        (fun e => decide (e.1 < d.simfn k)) from
    drop_length_takeWhile _ _]
  rw [mem_ssdFilterLoop_eq (d.simfn k) _
    (hs1.sublist (List.dropWhile_sublist _))
    (mem_not_lt_dropWhile (d.simfn k) _ hs1) k']
  constructor
  · rintro ⟨e, he, h1, h2⟩
    have hel : e ∈ (ssdSortIfNeeded d).list :=
      (List.dropWhile_sublist _).subset he
    have hel3 : e ∈ d.dict.map (fun p => (d.simfn p.1, p.1)) :=
      hperm.mem_iff.mp (hp1.mem_iff.mp hel)
    rcases List.mem_map.mp hel3 with ⟨p, hpmem, hpe⟩
    have hk'1 : p.1 = k' := by
      rw [← h2, ← hpe]
    constructor
    · refine (containsK_iff d.dict k').mpr ⟨p.2, ?_⟩
      rw [← hk'1]
      exact hpmem
    · have hsim : d.simfn p.1 = e.1 := by rw [← hpe]
      rw [← hk'1, hsim, h1]
  · rintro ⟨hc, hsim⟩
    rcases (containsK_iff d.dict k').mp hc with ⟨v, hv⟩
    have hel : (d.simfn k', k') ∈ (ssdSortIfNeeded d).list :=
      hp1.mem_iff.mpr (hperm.mem_iff.mpr
        (List.mem_map.mpr ⟨(k', v), hv, rfl⟩))
    have hspl : (d.simfn k', k') ∈
        (ssdSortIfNeeded d).list.takeWhile
          (fun e => decide (e.1 < d.simfn k)) ++
        (ssdSortIfNeeded d).list.dropWhile
          (fun e => decide (e.1 < d.simfn k)) := by
      rw [List.takeWhile_append_dropWhile]
      exact hel
    rcases List.mem_append.mp hspl with ht | hd
    · have hlt := List.mem_takeWhile_imp ht
      rw [decide_eq_true_eq] at hlt
      rw [show ((d.simfn k', k') : S × K).1 = d.simfn k' from rfl, hsim] at hlt
      exact absurd hlt (lt_irrefl _)
    · exact ⟨(d.simfn k', k'), hd, hsim, rfl⟩

theorem ssdSetitem_simfn (d : SimilarSearchDict K V S) (k : K) (v : V) :
    (ssdSetitem d k v).simfn = d.simfn := by
  unfold ssdSetitem
  split <;> rfl

theorem ssdDelitem_simfn (d : SimilarSearchDict K V S) (k : K) :
    (ssdDelitem d k).simfn = d.simfn := by
  simp only [ssdDelitem]
  split
  · split <;> rfl
  · rfl

theorem ssdExecFold_inv (ops : List (SSDOp K V)) :
    ∀ d : SimilarSearchDict K V S, ssdInv d → ssdInv (ops.foldl ssdApply d) := by
  induction ops with
  | nil =>
    intro d hinv
    exact hinv
  | cons op rest ih =>
    intro d hinv
    cases op with
    | set k v => exact ih _ (ssdSetitem_inv d k v hinv)
    | del k => exact ih _ (ssdDelitem_inv d k hinv)

theorem ssdExecFold_simfn (ops : List (SSDOp K V)) :
    ∀ d : SimilarSearchDict K V S, (ops.foldl ssdApply d).simfn = d.simfn := by
  induction ops with
  | nil =>
    intro d
    rfl
  | cons op rest ih =>
    intro d
    cases op with
    | set k v =>
      show (rest.foldl ssdApply (ssdSetitem d k v)).simfn = d.simfn
      rw [ih (ssdSetitem d k v), ssdSetitem_simfn]
    | del k =>
      show (rest.foldl ssdApply (ssdDelitem d k)).simfn = d.simfn
      rw [ih (ssdDelitem d k), ssdDelitem_simfn]

/-- C6: for every `SimilarSearchDict` built by a finite interleaving of
`__setitem__` and `__delitem__` from empty, `get_similar_keys(k)` with no
count limit returns exactly the currently-present keys whose similarity
image equals that of the query key. -/
theorem c6_get_similar_exact (sf : K → S) (ops : List (SSDOp K V)) (k k' : K) :
    k' ∈ ssdGetSimilarKeys (ssdExec sf ops) k none ↔
      (containsK (ssdExec sf ops).dict k' = true ∧ sf k' = sf k) := by
  have hsim : (ssdExec sf ops).simfn = sf := ssdExecFold_simfn ops (ssdInit sf)
  have hinv : ssdInv (ssdExec sf ops) := ssdExecFold_inv ops _ (ssdInv_init sf)
  rw [ssdGetSimilarKeys_mem _ hinv k k', hsim]

end SimilarSearchMain

/-! ### C8 and C9: error-handling behavior of the mutation stand-ins -/

/-- C8 (code bug): the source's `clear` (steno_dictionary.py:97-100) performs
no `readonly` assertion — on a readonly dictionary holding an entry it
returns normally and silently empties both the forward mapping and the
reverse index, contradicting the class docstring ("If True, the dictionary
may not be modified") and the claim; `__setitem__`, `__delitem__` and
`update` do fail with the assertion. -/
theorem c8_clear_readonly_not_checked :
    sdClear (StenoDictionary.mk [((1:ℕ), (10:ℕ))] [(10, [1])] true true) =
      StenoDictionary.mk [] [] true true ∧
    sdSetitem (StenoDictionary.mk [((1:ℕ), (10:ℕ))] [(10, [1])] true true) 2 20 =
      Except.error "AssertionError: not self.readonly" ∧
    sdDelitem (StenoDictionary.mk [((1:ℕ), (10:ℕ))] [(10, [1])] true true) 1 =
      Except.error "AssertionError: not self.readonly" ∧
    sdUpdate (StenoDictionary.mk [((1:ℕ), (10:ℕ))] [(10, [1])] true true)
        [(2, 20)] =
      Except.error "AssertionError: not self.readonly" :=
  ⟨rfl, rfl, rfl, rfl⟩

/-- C9 (code bug): `pop`, `popitem` and `setdefault` on both
`StenoDictionary` (steno_dictionary.py:142-144) and `SimilarSearchDict`
(base.py:177-179) are `return NotImplementedError` — they *return* the
exception class as an ordinary value instead of raising, although they do
leave the mapping and the auxiliary list untouched. -/
theorem c9_unsupported_methods_return_not_raise :
    sdPop (StenoDictionary.mk [((1:ℕ), (10:ℕ))] [(10, [1])] false true) 1 =
      (PyValue.notImplementedErrorClass,
        StenoDictionary.mk [((1:ℕ), (10:ℕ))] [(10, [1])] false true) ∧
    sdPopitem (StenoDictionary.mk [((1:ℕ), (10:ℕ))] [(10, [1])] false true) =
      (PyValue.notImplementedErrorClass,
        StenoDictionary.mk [((1:ℕ), (10:ℕ))] [(10, [1])] false true) ∧
    sdSetdefault (StenoDictionary.mk [((1:ℕ), (10:ℕ))] [(10, [1])] false true)
        1 none =
      (PyValue.notImplementedErrorClass,
        StenoDictionary.mk [((1:ℕ), (10:ℕ))] [(10, [1])] false true) ∧
    ssdPop (SimilarSearchDict.mk [((1:ℕ), (10:ℕ))] [(1, 1)] false
        (fun n : ℕ => n)) 1 =
      (PyValue.notImplementedErrorClass,
        SimilarSearchDict.mk [((1:ℕ), (10:ℕ))] [(1, 1)] false
          (fun n : ℕ => n)) ∧
    ssdPopitem (SimilarSearchDict.mk [((1:ℕ), (10:ℕ))] [(1, 1)] false
        (fun n : ℕ => n)) =
      (PyValue.notImplementedErrorClass,
        SimilarSearchDict.mk [((1:ℕ), (10:ℕ))] [(1, 1)] false
          (fun n : ℕ => n)) ∧
    ssdSetdefault (SimilarSearchDict.mk [((1:ℕ), (10:ℕ))] [(1, 1)] false
        (fun n : ℕ => n)) 1 none =
      (PyValue.notImplementedErrorClass,
        SimilarSearchDict.mk [((1:ℕ), (10:ℕ))] [(1, 1)] false
          (fun n : ℕ => n)) :=
  ⟨rfl, rfl, rfl, rfl, rfl, rfl⟩

/-! ### `_multi_reverse_lookup` and the `find_*` entry points (C7)

The collection-level searches operate on `String` translations (the source
sorts candidates with `key=str.lower`).  The per-member query surfaces
(`similar_reverse_lookup`, `partial_reverse_lookup`, `regex_reverse_lookup`)
are pass-throughs installed in `StenoDictionary.__init__`
(steno_dictionary.py:46-48) to the `ReverseStenoDict` similarity-query
surface, which is not part of the sources; they are modelled from the spec
as function parameters `qs`/`qp`/`qr` returning the member's candidate
translations.  The `v is not old_v` test in `_multi_reverse_lookup` is an
object-identity comparison not determined by string values; it is modelled
by a parameter `ident` (every property proved below holds for every choice
of `ident`). -/

/-- Case-insensitive candidate order: `sorted(values, key=str.lower)`. -/
def lowerLe (a b : String) : Prop := a.toLower ≤ b.toLower

instance lowerLeDecidable : DecidableRel lowerLe := by
  intro a b
  unfold lowerLe
  infer_instance

/-- `v is not old_v` guard: skip when the candidate is identical to the
previous one (`old_v` starts as `None`). -/
def identSkip (ident : String → String → Bool) (old : Option String)
    (v : String) : Bool :=
  match old with
  | some o => ident v o
  | none => false

/-- `max_count is not None and len(results) >= max_count`. -/
def countReached (maxCount : Option Nat) (len : Nat) : Bool :=
  match maxCount with
  | some n => decide (len ≥ n)
  | none => false

/-- The loop of `_multi_reverse_lookup` (steno_dictionary.py:203-215): skip
candidates identical to the previous one, reverse-look-up the rest, keep a
pair only when its key set is non-empty, and break once `max_count` results
have been collected (the check runs after appending). -/
def mrlLoop (c : StenoDictionaryCollection K String)
    (ident : String → String → Bool) (maxCount : Option Nat) :
    List String → Option String → List (String × Finset K) →
      List (String × Finset K)
  | [], _, results => results
  | v :: rest, old, results =>
    if identSkip ident old v = true then
      mrlLoop c ident maxCount rest old results
    else
      if sdcReverseLookup c v = ∅ then
        mrlLoop c ident maxCount rest (some v) results
      else
        if countReached maxCount
            (results ++ [(v, sdcReverseLookup c v)]).length = true then
          results ++ [(v, sdcReverseLookup c v)]
        else
          mrlLoop c ident maxCount rest (some v)
            (results ++ [(v, sdcReverseLookup c v)])

/-- `StenoDictionaryCollection._multi_reverse_lookup(values, max_count)`
(steno_dictionary.py:196-215). -/
def multi_reverse_lookup (c : StenoDictionaryCollection K String)
    (ident : String → String → Bool) (values : List String)
    (maxCount : Option Nat) : List (String × Finset K) :=
  mrlLoop c ident maxCount (List.insertionSort lowerLe values) none []

/-- `StenoDictionaryCollection.find_similar(value)`
(steno_dictionary.py:217-223): gather candidates from every enabled
member's similar-query surface, then `_multi_reverse_lookup` with no
count. -/
def find_similar (c : StenoDictionaryCollection K String)
    (qs : StenoDictionary K String → String → List String)
    (ident : String → String → Bool) (value : String) :
    List (String × Finset K) :=
  multi_reverse_lookup c ident
    ((c.dicts.filter (fun d => d.enabled)).flatMap (fun d => qs d value)) none

/-- `StenoDictionaryCollection.find_partial(pattern, count)`
(steno_dictionary.py:225-233). -/
def find_partial (c : StenoDictionaryCollection K String)
    (qp : StenoDictionary K String → String → Option Nat → List String)
    (ident : String → String → Bool) (pattern : String)
    (count : Option Nat) : List (String × Finset K) :=
  multi_reverse_lookup c ident
    ((c.dicts.filter (fun d => d.enabled)).flatMap (fun d => qp d pattern count))
    count

/-- `StenoDictionaryCollection.find_regex(pattern, count)`
(steno_dictionary.py:235-242). -/
def find_regex (c : StenoDictionaryCollection K String)
    (qr : StenoDictionary K String → String → Option Nat → List String)
    (ident : String → String → Bool) (pattern : String)
    (count : Option Nat) : List (String × Finset K) :=
  multi_reverse_lookup c ident
    ((c.dicts.filter (fun d => d.enabled)).flatMap (fun d => qr d pattern count))
    count

theorem mrlLoop_cons (c : StenoDictionaryCollection K String)
    (ident : String → String → Bool) (maxCount : Option Nat) (v : String)
    (rest : List String) (old : Option String)
    (results : List (String × Finset K)) :
    mrlLoop c ident maxCount (v :: rest) old results =
      if identSkip ident old v = true then
        mrlLoop c ident maxCount rest old results
      else
        if sdcReverseLookup c v = ∅ then
          mrlLoop c ident maxCount rest (some v) results
        else
          if countReached maxCount
              (results ++ [(v, sdcReverseLookup c v)]).length = true then
            results ++ [(v, sdcReverseLookup c v)]
          else
            mrlLoop c ident maxCount rest (some v)
              (results ++ [(v, sdcReverseLookup c v)]) := rfl

theorem mrlLoop_nonempty (c : StenoDictionaryCollection K String)
    (ident : String → String → Bool) (maxCount : Option Nat) :
    ∀ (vs : List String) (old : Option String)
      (results : List (String × Finset K)),
      (∀ p ∈ results, p.2 ≠ ∅) →
      ∀ p ∈ mrlLoop c ident maxCount vs old results, p.2 ≠ ∅ := by
  intro vs
  induction vs with
  | nil =>
    intro old results hres p hp
    exact hres p hp
  | cons v rest ih =>
    intro old results hres p hp
    by_cases hid : identSkip ident old v = true
    · rw [mrlLoop_cons, if_pos hid] at hp
      exact ih old results hres p hp
    · rw [mrlLoop_cons, if_neg hid] at hp
      by_cases hkeys : sdcReverseLookup c v = ∅
      · rw [if_pos hkeys] at hp
        exact ih (some v) results hres p hp
      · rw [if_neg hkeys] at hp
        have hres' : ∀ q ∈ results ++ [(v, sdcReverseLookup c v)], q.2 ≠ ∅ := by
          intro q hq
          rcases List.mem_append.mp hq with hq | hq
          · exact hres q hq
          · rw [List.mem_singleton.mp hq]
            exact hkeys
        by_cases hcnt : countReached maxCount
            (results ++ [(v, sdcReverseLookup c v)]).length = true
        · rw [if_pos hcnt] at hp
          exact hres' p hp
        · rw [if_neg hcnt] at hp
          exact ih (some v) _ hres' p hp

theorem mrlLoop_length (c : StenoDictionaryCollection K String)
    (ident : String → String → Bool) (n : Nat) :
    ∀ (vs : List String) (old : Option String)
      (results : List (String × Finset K)),
      (results.length < n →
        (mrlLoop c ident (some n) vs old results).length ≤ n) ∧
      (n ≤ results.length →
        (mrlLoop c ident (some n) vs old results).length ≤
          results.length + 1) := by
  intro vs
  induction vs with
  | nil =>
    intro old results
    constructor
    · intro h
      exact le_of_lt h
    · intro _
      exact Nat.le_succ _
  | cons v rest ih =>
    intro old results
    constructor
    · intro hlt
      by_cases hid : identSkip ident old v = true
      · rw [mrlLoop_cons, if_pos hid]
        exact (ih old results).1 hlt
      · rw [mrlLoop_cons, if_neg hid]
        by_cases hkeys : sdcReverseLookup c v = ∅
        · rw [if_pos hkeys]
          exact (ih (some v) results).1 hlt
        · rw [if_neg hkeys]
          by_cases hcnt : countReached (some n)
              (results ++ [(v, sdcReverseLookup c v)]).length = true
          · rw [if_pos hcnt]
            rw [List.length_append, List.length_singleton]
            exact hlt
          · rw [if_neg hcnt]
            have hlt' : (results ++ [(v, sdcReverseLookup c v)]).length < n := by
              rcases Nat.lt_or_ge (results ++ [(v, sdcReverseLookup c v)]).length n
                with h' | h'
              · exact h'
              · exact absurd (decide_eq_true h') (by simpa [countReached] using hcnt)
            exact (ih (some v) _).1 hlt'
    · intro hge
      by_cases hid : identSkip ident old v = true
      · rw [mrlLoop_cons, if_pos hid]
        exact (ih old results).2 hge
      · rw [mrlLoop_cons, if_neg hid]
        by_cases hkeys : sdcReverseLookup c v = ∅
        · rw [if_pos hkeys]
          exact (ih (some v) results).2 hge
        · rw [if_neg hkeys]
          have hbreak : countReached (some n)
              (results ++ [(v, sdcReverseLookup c v)]).length = true := by
            unfold countReached
            refine decide_eq_true ?_
            rw [List.length_append, List.length_singleton]
            exact le_trans hge (Nat.le_succ _)
          rw [if_pos hbreak]
          rw [List.length_append, List.length_singleton]

theorem multi_reverse_lookup_nonempty (c : StenoDictionaryCollection K String)
    (ident : String → String → Bool) (values : List String)
    (maxCount : Option Nat) :
    ∀ p ∈ multi_reverse_lookup c ident values maxCount, p.2 ≠ ∅ :=
  mrlLoop_nonempty c ident maxCount _ none []
    (fun p hp => absurd hp (List.not_mem_nil p))

theorem multi_reverse_lookup_length (c : StenoDictionaryCollection K String)
    (ident : String → String → Bool) (values : List String) (n : Nat) :
    (multi_reverse_lookup c ident values (some n)).length ≤ max n 1 := by
  unfold multi_reverse_lookup
  rcases Nat.eq_zero_or_pos n with hn | hn
  · subst hn
    have h := (mrlLoop_length c ident 0 (List.insertionSort lowerLe values)
      none []).2 (Nat.le_refl 0)
    simpa using le_trans h (by simp)
  · have h := (mrlLoop_length c ident n (List.insertionSort lowerLe values)
      none []).1 (by simpa using hn)
    exact le_trans h (Nat.le_max_left n 1)

/-- Counterexample for C7 as stated: with `count = 0`, `find_partial` returns
one pair, not zero — `_multi_reverse_lookup`'s break condition
`len(results) >= max_count` only runs *after* a result has been appended
(and the member-level `filter_keys` scan likewise appends one key before its
count check).  The member query here is the source's
`SimilarSearchDict.filter_keys` on a one-entry reverse structure. -/
theorem c7_counterexample :
    ¬ (( find_partial (StenoDictionaryCollection.mk
        [StenoDictionary.mk [((1:ℕ), "x")] [("x", [1])] false true] [])
        (fun _ pat cnt => ssdFilterKeys
          (SimilarSearchDict.mk [("x", [(1:ℕ)])] [((0:ℕ), "x")] false
            (fun _ : String => (0:ℕ))) pat cnt
          (some (fun a b => decide (a = b))))
        (fun a b => a == b) "x" (some 0)).length ≤ 0) := by
  decide

/-- C7 amended: for every collection, every member query surface, every
identity oracle, every pattern and every count, `find_similar`,
`find_partial` and `find_regex` never return a pair with an empty key set;
when a positive count `n` is given the result holds at most `n` pairs, and
with `n = 0` at most one pair (collection stops at the first appended
result). -/
theorem c7_amended_nonempty_and_count (c : StenoDictionaryCollection K String)
    (qs : StenoDictionary K String → String → List String)
    (qp qr : StenoDictionary K String → String → Option Nat → List String)
    (ident : String → String → Bool) (value pattern : String)
    (count : Option Nat) (n : Nat) :
    (∀ p ∈ find_similar c qs ident value, p.2 ≠ ∅) ∧
    (∀ p ∈ find_partial c qp ident pattern count, p.2 ≠ ∅) ∧
    (∀ p ∈ find_regex c qr ident pattern count, p.2 ≠ ∅) ∧
    (count = some n →
      ( find_partial c qp ident pattern count).length ≤ max n 1) ∧
    (count = some n →
      (find_regex c qr ident pattern count).length ≤ max n 1) := by
  refine ⟨multi_reverse_lookup_nonempty c ident _ _,
    multi_reverse_lookup_nonempty c ident _ _,
    multi_reverse_lookup_nonempty c ident _ _, ?_, ?_⟩
  · intro hcnt
    rw [hcnt]
    exact multi_reverse_lookup_length c ident _ n
  · intro hcnt
    rw [hcnt]
    exact multi_reverse_lookup_length c ident _ n

/-- Witness for C7 amended, at a concrete collection, query surface and
count 2. -/
theorem c7_amended_nonempty_and_count_witness :
    ( find_partial (StenoDictionaryCollection.mk
        [StenoDictionary.mk [((1:ℕ), "x")] [("x", [1])] false true] [])
        (fun _ _ _ => ["x"]) (fun a b => a == b) "x" (some 2)).length ≤
      max 2 1 :=
  (c7_amended_nonempty_and_count
    (StenoDictionaryCollection.mk
      [StenoDictionary.mk [((1:ℕ), "x")] [("x", [1])] false true] [])
    (fun _ _ => ["x"]) (fun _ _ _ => ["x"]) (fun _ _ _ => ["x"])
    (fun a b => a == b) "x" "x" (some 2) 2).2.2.2.1 rfl
